import Mathlib

/-!
Verification development for the CoreDB single-node LSM storage engine.

The Rust source is shallowly embedded: Rust `String` and `Vec<u8>` become
`List Nat` (byte lists), machine integers become `Nat`/`Int` with explicit
`% 2^w` where wrap-around matters, `f64` values are carried as their 64-bit
patterns, and the ordered concurrent maps (`SkipMap`, `BTreeMap`) become
association lists ordered by the very comparator the source supplies to them.
Fallible operations return `Option`/`Except`.
-/

namespace CoreDB

/-- Byte strings: Rust `String` / `Vec<u8>` as lists of byte values. -/
abbrev ByteStr := List Nat

/-- `CassandraValue` from `schema.rs`: the tagged value variant.
`double` carries the 64-bit pattern of the `f64`; `uuidV` the 128-bit value;
`mapV` carries the `HashMap<String, CassandraValue>` as an association list. -/
inductive CassandraValue : Type where
  | text (s : ByteStr)
  | int (i : Int)
  | bigint (i : Int)
  | uuidV (u : Nat)
  | timestamp (t : Int)
  | boolean (b : Bool)
  | double (bits : Nat)
  | blob (bs : ByteStr)
  | nullV
  | mapV (m : List (ByteStr × CassandraValue))
  | listV (l : List CassandraValue)
  | setV (s : List CassandraValue)

/-- Index of the constructor, used to talk about "kinds" of values. -/
def kindIdx : CassandraValue → Nat
  | .text _ => 0
  | .int _ => 1
  | .bigint _ => 2
  | .uuidV _ => 3
  | .timestamp _ => 4
  | .boolean _ => 5
  | .double _ => 6
  | .blob _ => 7
  | .nullV => 8
  | .mapV _ => 9
  | .listV _ => 10
  | .setV _ => 11

/-- Lexicographic comparison of byte lists — Rust `str`/`Vec<u8>` `Ord`. -/
def bytesCmp : ByteStr → ByteStr → Ordering
  | [], [] => .eq
  | [], _ :: _ => .lt
  | _ :: _, [] => .gt
  | a :: as_, b :: bs =>
    match compare a b with
    | .eq => bytesCmp as_ bs
    | r => r

/-- Rust `bool` ordering: `false < true`. -/
def boolCmp (a b : Bool) : Ordering :=
  compare (cond a 1 0 : Nat) (cond b 1 0)

/-- `f64::is_nan` on the bit pattern: exponent all ones and mantissa nonzero. -/
def f64IsNaN (b : Nat) : Bool := b % 2 ^ 63 > 0x7FF0000000000000

/-- `f64::partial_cmp` on bit patterns: `none` when either side is NaN,
`+0 = -0`, otherwise sign bit then magnitude (reversed for negatives). -/
def f64CmpO (a b : Nat) : Option Ordering :=
  if f64IsNaN a || f64IsNaN b then none
  else
    if a % 2 ^ 63 = 0 ∧ b % 2 ^ 63 = 0 then some .eq
    else if a / 2 ^ 63 % 2 = b / 2 ^ 63 % 2 then
      if a / 2 ^ 63 % 2 = 0 then some (compare (a % 2 ^ 63) (b % 2 ^ 63))
      else some (compare (b % 2 ^ 63) (a % 2 ^ 63))
    else if a / 2 ^ 63 % 2 = 0 then some .gt
    else some .lt

/-- `Vec<T>::partial_cmp`: elementwise `partial_cmp`, a non-`Some(Equal)`
result (including `None`) is returned at once; ties broken by length. -/
def listCmpO (f : α → α → Option Ordering) : List α → List α → Option Ordering
  | [], [] => some .eq
  | [], _ :: _ => some .lt
  | _ :: _, [] => some .gt
  | a :: as_, b :: bs =>
    match f a b with
    | some .eq => listCmpO f as_ bs
    | r => r

mutual
/-- `impl PartialOrd for CassandraValue` (`schema.rs`): same-kind values are
compared by their payloads, `(Null, Null)` and `(Map, Map)` compare equal,
and every mixed-kind pair yields `None`. -/
def valueCmpO : CassandraValue → CassandraValue → Option Ordering
  | .text a, .text b => some (bytesCmp a b)
  | .int a, .int b => some (compare a b)
  | .bigint a, .bigint b => some (compare a b)
  | .uuidV a, .uuidV b => some (compare a b)
  | .timestamp a, .timestamp b => some (compare a b)
  | .boolean a, .boolean b => some (boolCmp a b)
  | .double a, .double b => f64CmpO a b
  | .blob a, .blob b => some (bytesCmp a b)
  | .listV a, .listV b => valueListCmpO a b
  | .setV a, .setV b => valueListCmpO a b
  | .nullV, .nullV => some .eq
  | .mapV _, .mapV _ => some .eq
  | _, _ => none

/-- `Vec<CassandraValue>::partial_cmp`, specialised to keep the mutual
recursion structural. -/
def valueListCmpO : List CassandraValue → List CassandraValue → Option Ordering
  | [], [] => some .eq
  | [], _ :: _ => some .lt
  | _ :: _, [] => some .gt
  | a :: as_, b :: bs =>
    match valueCmpO a b with
    | some .eq => valueListCmpO as_ bs
    | r => r
end

/-- `impl Ord for CassandraValue`: `partial_cmp(..).unwrap_or(Equal)`. -/
def valueCmp (a b : CassandraValue) : Ordering :=
  (valueCmpO a b).getD .eq

/-- Lexicographic comparison with a total element comparator —
`Vec<T>::cmp` as used by the derived `Ord` of the key structs. -/
def keyListCmp (f : α → α → Ordering) : List α → List α → Ordering
  | [], [] => .eq
  | [], _ :: _ => .lt
  | _ :: _, [] => .gt
  | a :: as_, b :: bs =>
    match f a b with
    | .eq => keyListCmp f as_ bs
    | r => r

/-- `PartitionKey` (`schema.rs`). -/
structure PartitionKey where
  components : List CassandraValue

/-- `ClusteringKey` (`schema.rs`). -/
structure ClusteringKey where
  components : List CassandraValue

/-- Derived `Ord` of `PartitionKey`: `Vec` lexicographic with `valueCmp`. -/
def pkCmp (a b : PartitionKey) : Ordering :=
  keyListCmp valueCmp a.components b.components

/-- Derived `Ord` of `ClusteringKey`. -/
def ckCmp (a b : ClusteringKey) : Ordering :=
  keyListCmp valueCmp a.components b.components

/-- `Ord` of `Option<ClusteringKey>`: `None` is the least element. -/
def optCkCmp : Option ClusteringKey → Option ClusteringKey → Ordering
  | none, none => .eq
  | none, some _ => .lt
  | some _, none => .gt
  | some a, some b => ckCmp a b

mutual
/-- `CassandraValue::serialized_size` (`schema.rs`). -/
def serialized_size : CassandraValue → Nat
  | .text s => 8 + s.length
  | .int _ => 4
  | .bigint _ => 8
  | .uuidV _ => 16
  | .timestamp _ => 8
  | .boolean _ => 1
  | .double _ => 8
  | .blob b => 8 + b.length
  | .nullV => 1
  | .mapV m => 8 + sizeEntries m
  | .listV l => 8 + sizeList l
  | .setV s => 8 + sizeList s

/-- Sum of `serialized_size` over collection elements. -/
def sizeList : List CassandraValue → Nat
  | [] => 0
  | v :: vs => serialized_size v + sizeList vs

/-- Sum over map entries: `8 + k.len() + v.serialized_size()` each. -/
def sizeEntries : List (ByteStr × CassandraValue) → Nat
  | [] => 0
  | (k, v) :: rest => (8 + k.length + serialized_size v) + sizeEntries rest
end

/-- `PartitionKey::serialized_size`. -/
def pkSerializedSize (k : PartitionKey) : Nat := 8 + sizeList k.components

/-- `ClusteringKey::serialized_size`. -/
def ckSerializedSize (k : ClusteringKey) : Nat := 8 + sizeList k.components

/-- `Cell` (`schema.rs`): value, write timestamp, optional TTL, tombstone. -/
structure Cell where
  value : CassandraValue
  timestamp : Int
  ttl : Option Nat
  is_deleted : Bool

/-- `Row` (`schema.rs`); `cells` is the `HashMap<String, Cell>` as an
association list. -/
structure Row where
  partition_key : PartitionKey
  clustering_key : Option ClusteringKey
  cells : List (ByteStr × Cell)
  timestamp : Int

/-! ## Bincode byte layer

The source serializes values, rows and WAL entries with `bincode` (default
configuration: little-endian fixed-width integers, `u64` length prefixes,
`u32` enum tags, one-byte booleans and `Option` tags).  We model the byte
format concretely; `Modelled from the spec:` the `bincode` crate itself is an
external dependency, its framing rules are reproduced here from the on-disk
format the spec documents (§6). -/

/-- Little-endian 4-byte encoding of `n % 2^32`. -/
def u32le (n : Nat) : ByteStr :=
  [n % 256, n / 2 ^ 8 % 256, n / 2 ^ 16 % 256, n / 2 ^ 24 % 256]

/-- Big-endian 4-byte encoding of `n % 2^32` — what tokio's `write_u32`
produces on the SSTable write path. -/
def u32be (n : Nat) : ByteStr :=
  [n / 2 ^ 24 % 256, n / 2 ^ 16 % 256, n / 2 ^ 8 % 256, n % 256]

/-- Little-endian 8-byte encoding of `n % 2^64`. -/
def u64le (n : Nat) : ByteStr :=
  [n % 256, n / 2 ^ 8 % 256, n / 2 ^ 16 % 256, n / 2 ^ 24 % 256,
   n / 2 ^ 32 % 256, n / 2 ^ 40 % 256, n / 2 ^ 48 % 256, n / 2 ^ 56 % 256]

/-- Two's-complement 4-byte encoding of an `i32`. -/
def i32le (i : Int) : ByteStr := u32le (i % 2 ^ 32).toNat

/-- Two's-complement 8-byte encoding of an `i64`. -/
def i64le (i : Int) : ByteStr := u64le (i % 2 ^ 64).toNat

/-- Big-endian byte encoding, most significant byte first. -/
def beBytes : Nat → Nat → ByteStr
  | 0, _ => []
  | n + 1, u => u / 2 ^ (8 * n) % 256 :: beBytes n (u % 2 ^ (8 * n))

/-- Big-endian 16-byte encoding of a 128-bit value (`Uuid::as_bytes`). -/
def be16 (u : Nat) : ByteStr := beBytes 16 u

mutual
/-- Bincode encoding of a `CassandraValue`: `u32` variant tag then payload. -/
def encodeValue : CassandraValue → ByteStr
  | .text s => u32le 0 ++ u64le s.length ++ s
  | .int i => u32le 1 ++ i32le i
  | .bigint i => u32le 2 ++ i64le i
  | .uuidV u => u32le 3 ++ u64le 16 ++ be16 u
  | .timestamp t => u32le 4 ++ i64le t
  | .boolean b => u32le 5 ++ [cond b 1 0]
  | .double bits => u32le 6 ++ u64le bits
  | .blob bs => u32le 7 ++ u64le bs.length ++ bs
  | .nullV => u32le 8
  | .mapV m => u32le 9 ++ u64le m.length ++ encodeEntries m
  | .listV l => u32le 10 ++ u64le l.length ++ encodeValues l
  | .setV s => u32le 11 ++ u64le s.length ++ encodeValues s

/-- Concatenated encodings of a `Vec<CassandraValue>`'s elements. -/
def encodeValues : List CassandraValue → ByteStr
  | [] => []
  | v :: vs => encodeValue v ++ encodeValues vs

/-- Concatenated encodings of `HashMap<String, CassandraValue>` entries. -/
def encodeEntries : List (ByteStr × CassandraValue) → ByteStr
  | [] => []
  | (k, v) :: rest => u64le k.length ++ k ++ encodeValue v ++ encodeEntries rest
end

mutual
/-- Well-formedness of a value as a machine value: integer components in
range and collection/string lengths representable in a `u64`. -/
def wfValue : CassandraValue → Bool
  | .text s => decide (s.length < 2 ^ 64)
  | .int i => decide (-(2 ^ 31) ≤ i) && decide (i < 2 ^ 31)
  | .bigint i => decide (-(2 ^ 63) ≤ i) && decide (i < 2 ^ 63)
  | .uuidV u => decide (u < 2 ^ 128)
  | .timestamp t => decide (-(2 ^ 63) ≤ t) && decide (t < 2 ^ 63)
  | .boolean _ => true
  | .double bits => decide (bits < 2 ^ 64)
  | .blob bs => decide (bs.length < 2 ^ 64)
  | .nullV => true
  | .mapV m => decide (m.length < 2 ^ 64) && wfEntries m
  | .listV l => decide (l.length < 2 ^ 64) && wfValues l
  | .setV s => decide (s.length < 2 ^ 64) && wfValues s

/-- All elements well-formed. -/
def wfValues : List CassandraValue → Bool
  | [] => true
  | v :: vs => wfValue v && wfValues vs

/-- All entries well-formed (key length representable, value well-formed). -/
def wfEntries : List (ByteStr × CassandraValue) → Bool
  | [] => true
  | (k, v) :: rest => decide (k.length < 2 ^ 64) && wfValue v && wfEntries rest
end

mutual
/-- Nesting depth of a value; bounds the parser fuel. -/
def depthV : CassandraValue → Nat
  | .mapV m => 1 + depthEntries m
  | .listV l => 1 + depthList l
  | .setV s => 1 + depthList s
  | _ => 1

/-- Maximum depth over elements. -/
def depthList : List CassandraValue → Nat
  | [] => 0
  | v :: vs => max (depthV v) (depthList vs)

/-- Maximum depth over entry values. -/
def depthEntries : List (ByteStr × CassandraValue) → Nat
  | [] => 0
  | (_, v) :: rest => max (depthV v) (depthEntries rest)
end

/-- Take exactly `n` bytes from the stream. -/
def pBytes (n : Nat) (bs : ByteStr) : Option (ByteStr × ByteStr) :=
  if n ≤ bs.length then some (bs.take n, bs.drop n) else none

/-- Read a little-endian `u32`. -/
def pU32 : ByteStr → Option (Nat × ByteStr)
  | b0 :: b1 :: b2 :: b3 :: rest =>
    some (b0 + 2 ^ 8 * b1 + 2 ^ 16 * b2 + 2 ^ 24 * b3, rest)
  | _ => none

/-- Read a little-endian `u64`. -/
def pU64 : ByteStr → Option (Nat × ByteStr)
  | b0 :: b1 :: b2 :: b3 :: b4 :: b5 :: b6 :: b7 :: rest =>
    some (b0 + 2 ^ 8 * b1 + 2 ^ 16 * b2 + 2 ^ 24 * b3 + 2 ^ 32 * b4 +
      2 ^ 40 * b5 + 2 ^ 48 * b6 + 2 ^ 56 * b7, rest)
  | _ => none

/-- Read an `i32` (two's complement). -/
def pI32 (bs : ByteStr) : Option (Int × ByteStr) :=
  match pU32 bs with
  | some (n, rest) =>
    some (if n < 2 ^ 31 then (n : Int) else (n : Int) - 2 ^ 32, rest)
  | none => none

/-- Read an `i64` (two's complement). -/
def pI64 (bs : ByteStr) : Option (Int × ByteStr) :=
  match pU64 bs with
  | some (n, rest) =>
    some (if n < 2 ^ 63 then (n : Int) else (n : Int) - 2 ^ 64, rest)
  | none => none

/-- Read a bincode `bool` byte: `0` or `1`, anything else is an error. -/
def pBool : ByteStr → Option (Bool × ByteStr)
  | 0 :: rest => some (false, rest)
  | 1 :: rest => some (true, rest)
  | _ => none

/-- Decode 16 big-endian bytes to the 128-bit value. -/
def decodeBE16 (bs : ByteStr) : Nat :=
  bs.foldl (fun acc b => acc * 256 + b) 0

/-- Run a parser `n` times, collecting the results. -/
def parseCount (p : ByteStr → Option (α × ByteStr)) :
    Nat → ByteStr → Option (List α × ByteStr)
  | 0, bs => some ([], bs)
  | n + 1, bs =>
    match p bs with
    | some (v, r) =>
      match parseCount p n r with
      | some (l, r2) => some (v :: l, r2)
      | none => none
    | none => none

/-- Parse one `(String, CassandraValue)` map entry, the value by `p`. -/
def pEntry (p : ByteStr → Option (CassandraValue × ByteStr)) (bs : ByteStr) :
    Option ((ByteStr × CassandraValue) × ByteStr) :=
  match pU64 bs with
  | some (n, r1) =>
    match pBytes n r1 with
    | some (k, r2) =>
      match p r2 with
      | some (v, r3) => some ((k, v), r3)
      | none => none
    | none => none
  | none => none

/-- Fuel-indexed bincode parser for `CassandraValue`, inverse of
`encodeValue`. -/
def parseValue : Nat → ByteStr → Option (CassandraValue × ByteStr)
  | 0, _ => none
  | fuel + 1, bs =>
    match pU32 bs with
    | none => none
    | some (tag, r1) =>
      if tag = 0 then
        match pU64 r1 with
        | some (n, r2) =>
          match pBytes n r2 with
          | some (s, r3) => some (.text s, r3)
          | none => none
        | none => none
      else if tag = 1 then
        match pI32 r1 with
        | some (i, r2) => some (.int i, r2)
        | none => none
      else if tag = 2 then
        match pI64 r1 with
        | some (i, r2) => some (.bigint i, r2)
        | none => none
      else if tag = 3 then
        match pU64 r1 with
        | some (n, r2) =>
          if n = 16 then
            match pBytes 16 r2 with
            | some (u, r3) => some (.uuidV (decodeBE16 u), r3)
            | none => none
          else none
        | none => none
      else if tag = 4 then
        match pI64 r1 with
        | some (i, r2) => some (.timestamp i, r2)
        | none => none
      else if tag = 5 then
        match pBool r1 with
        | some (b, r2) => some (.boolean b, r2)
        | none => none
      else if tag = 6 then
        match pU64 r1 with
        | some (n, r2) => some (.double n, r2)
        | none => none
      else if tag = 7 then
        match pU64 r1 with
        | some (n, r2) =>
          match pBytes n r2 with
          | some (s, r3) => some (.blob s, r3)
          | none => none
        | none => none
      else if tag = 8 then some (.nullV, r1)
      else if tag = 9 then
        match pU64 r1 with
        | some (n, r2) =>
          match parseCount (pEntry (parseValue fuel)) n r2 with
          | some (m, r3) => some (.mapV m, r3)
          | none => none
        | none => none
      else if tag = 10 then
        match pU64 r1 with
        | some (n, r2) =>
          match parseCount (parseValue fuel) n r2 with
          | some (l, r3) => some (.listV l, r3)
          | none => none
        | none => none
      else if tag = 11 then
        match pU64 r1 with
        | some (n, r2) =>
          match parseCount (parseValue fuel) n r2 with
          | some (l, r3) => some (.setV l, r3)
          | none => none
        | none => none
      else none

/-- `bincode::serialize` of a `CassandraValue`. -/
def serializeValue (v : CassandraValue) : ByteStr := encodeValue v

/-- `bincode::deserialize` of a `CassandraValue`: parse, requiring the whole
input to be consumed. -/
def deserializeValue (bs : ByteStr) : Option CassandraValue :=
  match parseValue (bs.length + 1) bs with
  | some (v, []) => some v
  | _ => none

mutual
/-- `true` when the value has no `Null` or `UUID` component (the two kinds
whose `serialized_size` disagrees with the encoded payload size). -/
def noNullUuid : CassandraValue → Bool
  | .nullV => false
  | .uuidV _ => false
  | .mapV m => noNullUuidEntries m
  | .listV l => noNullUuidList l
  | .setV s => noNullUuidList s
  | _ => true

/-- All elements free of `Null`/`UUID`. -/
def noNullUuidList : List CassandraValue → Bool
  | [] => true
  | v :: vs => noNullUuid v && noNullUuidList vs

/-- All entry values free of `Null`/`UUID`. -/
def noNullUuidEntries : List (ByteStr × CassandraValue) → Bool
  | [] => true
  | (_, v) :: r => noNullUuid v && noNullUuidEntries r
end

mutual
/-- Number of enum tags (4-byte framing words) in a value's encoding. -/
def tagCount : CassandraValue → Nat
  | .mapV m => 1 + tagCountEntries m
  | .listV l => 1 + tagCountList l
  | .setV s => 1 + tagCountList s
  | _ => 1

/-- Total tag count over elements. -/
def tagCountList : List CassandraValue → Nat
  | [] => 0
  | v :: vs => tagCount v + tagCountList vs

/-- Total tag count over entry values. -/
def tagCountEntries : List (ByteStr × CassandraValue) → Nat
  | [] => 0
  | (_, v) :: r => tagCount v + tagCountEntries r
end

mutual
/-- Structural (bit-level) equality test for values. -/
def beqV : CassandraValue → CassandraValue → Bool
  | .text a, .text b => a == b
  | .int a, .int b => a == b
  | .bigint a, .bigint b => a == b
  | .uuidV a, .uuidV b => a == b
  | .timestamp a, .timestamp b => a == b
  | .boolean a, .boolean b => a == b
  | .double a, .double b => a == b
  | .blob a, .blob b => a == b
  | .nullV, .nullV => true
  | .mapV a, .mapV b => beqEntriesV a b
  | .listV a, .listV b => beqListV a b
  | .setV a, .setV b => beqListV a b
  | _, _ => false

/-- Structural equality of element lists. -/
def beqListV : List CassandraValue → List CassandraValue → Bool
  | [], [] => true
  | a :: as_, b :: bs => beqV a b && beqListV as_ bs
  | _, _ => false

/-- Structural equality of entry lists. -/
def beqEntriesV : List (ByteStr × CassandraValue) →
    List (ByteStr × CassandraValue) → Bool
  | [], [] => true
  | (k1, v1) :: r1, (k2, v2) :: r2 => k1 == k2 && beqV v1 v2 && beqEntriesV r1 r2
  | _, _ => false
end

mutual
def beqV_iff : ∀ a b : CassandraValue, beqV a b = true ↔ a = b
  | a, b => by
    cases a <;> cases b <;>
      simp only [beqV, beq_iff_eq, Bool.and_eq_true, reduceCtorEq,
        CassandraValue.text.injEq, CassandraValue.int.injEq,
        CassandraValue.bigint.injEq, CassandraValue.uuidV.injEq,
        CassandraValue.timestamp.injEq, CassandraValue.boolean.injEq,
        CassandraValue.double.injEq, CassandraValue.blob.injEq,
        CassandraValue.mapV.injEq, CassandraValue.listV.injEq,
        CassandraValue.setV.injEq]
    case mapV.mapV m1 m2 => exact beqEntriesV_iff m1 m2
    case listV.listV l1 l2 => exact beqListV_iff l1 l2
    case setV.setV s1 s2 => exact beqListV_iff s1 s2

def beqListV_iff : ∀ a b : List CassandraValue, beqListV a b = true ↔ a = b
  | a, b => by
    cases a with
    | nil => cases b <;> simp [beqListV]
    | cons x xs =>
      cases b with
      | nil => simp [beqListV]
      | cons y ys =>
        simp only [beqListV, Bool.and_eq_true, List.cons.injEq]
        rw [beqV_iff x y, beqListV_iff xs ys]

def beqEntriesV_iff : ∀ a b : List (ByteStr × CassandraValue),
    beqEntriesV a b = true ↔ a = b
  | a, b => by
    cases a with
    | nil => cases b <;> simp [beqEntriesV]
    | cons x xs =>
      obtain ⟨k1, v1⟩ := x
      cases b with
      | nil => simp [beqEntriesV]
      | cons y ys =>
        obtain ⟨k2, v2⟩ := y
        simp only [beqEntriesV, Bool.and_eq_true, List.cons.injEq,
          Prod.mk.injEq, beq_iff_eq]
        rw [beqV_iff v1 v2, beqEntriesV_iff xs ys]
end

instance : DecidableEq CassandraValue :=
  fun a b => decidable_of_iff _ (beqV_iff a b)

instance : DecidableEq PartitionKey :=
  fun a b =>
    match a, b with
    | ⟨x⟩, ⟨y⟩ =>
      if h : x = y then .isTrue (by rw [h]) else
        .isFalse (fun hh => h (congrArg PartitionKey.components hh))

instance : DecidableEq ClusteringKey :=
  fun a b =>
    match a, b with
    | ⟨x⟩, ⟨y⟩ =>
      if h : x = y then .isTrue (by rw [h]) else
        .isFalse (fun hh => h (congrArg ClusteringKey.components hh))

instance : DecidableEq Cell :=
  fun a b =>
    if h : a.value = b.value ∧ a.timestamp = b.timestamp ∧ a.ttl = b.ttl ∧
        a.is_deleted = b.is_deleted then
      .isTrue (by obtain ⟨c⟩ := a; obtain ⟨d⟩ := b; simp_all)
    else
      .isFalse (fun hh => h (by cases hh; exact ⟨rfl, rfl, rfl, rfl⟩))

instance : DecidableEq Row :=
  fun a b =>
    if h : a.partition_key = b.partition_key ∧
        a.clustering_key = b.clustering_key ∧ a.cells = b.cells ∧
        a.timestamp = b.timestamp then
      .isTrue (by obtain ⟨c⟩ := a; obtain ⟨d⟩ := b; simp_all)
    else
      .isFalse (fun hh => h (by cases hh; exact ⟨rfl, rfl, rfl, rfl⟩))

/-! ## Memtable (`storage/memtable.rs`)

`SkipMap` is modelled as an association list kept sorted by the comparator
the source instantiates it with; `insert` replaces the entry whose key
compares `Equal`, `get` finds it. -/

/-- Ordered-map lookup keyed by a comparator: the search walks past
smaller keys and stops at the first key that is not greater, exactly the
search path `insert` follows on the sorted structure. -/
def cmpLookup (cmp : κ → κ → Ordering) (k : κ) : List (κ × α) → Option α
  | [] => none
  | (k', v') :: rest =>
    match cmp k k' with
    | .eq => some v'
    | .lt => none
    | .gt => cmpLookup cmp k rest

/-- Ordered-map insert keyed by a comparator: replaces the entry whose key
compares `Equal`, otherwise inserts in order. -/
def cmpInsert (cmp : κ → κ → Ordering) (k : κ) (v : α) :
    List (κ × α) → List (κ × α)
  | [] => [(k, v)]
  | (k', v') :: rest =>
    match cmp k k' with
    | .lt => (k, v) :: (k', v') :: rest
    | .eq => (k, v) :: rest
    | .gt => (k', v') :: cmpInsert cmp k v rest

/-- Keys pairwise strictly ascending under the comparator (`SkipMap`
invariant on well-ordered keys). -/
def pairwiseLtB (cmp : κ → κ → Ordering) : List (κ × α) → Bool
  | [] => true
  | a :: rest => rest.all (fun b => cmp a.1 b.1 == .lt) && pairwiseLtB cmp rest

/-- `Partition` (`storage/memtable.rs`): clustering-key-ordered rows plus
static columns. -/
structure Partition where
  rows : List (Option ClusteringKey × Row)
  static_columns : List (ByteStr × Cell)

/-- `Partition::new`. -/
def Partition.newP : Partition := ⟨[], []⟩

/-- `Memtable` (`storage/memtable.rs`): partition-key-ordered partitions and
the atomic byte-size counter (a `u64`, hence the `% 2^64`). -/
structure Memtable where
  partitions : List (PartitionKey × Partition)
  size_bytes : Nat

/-- `Memtable::new` (creation time and schema omitted: no modelled operation
reads them). -/
def Memtable.newM : Memtable := ⟨[], 0⟩

/-- Per-cell share of `Memtable::calculate_row_size`:
`column_name.len() + cell.value.serialized_size() + 16`. -/
def cellsSize : List (ByteStr × Cell) → Nat
  | [] => 0
  | (name, cell) :: rest =>
    (name.length + serialized_size cell.value + 16) + cellsSize rest

/-- `Memtable::calculate_row_size`. -/
def calculate_row_size (row : Row) : Nat :=
  pkSerializedSize row.partition_key +
    (match row.clustering_key with
     | some ck => ckSerializedSize ck
     | none => 0) +
    cellsSize row.cells

/-- `Memtable::put`: locate or create the partition, adjust `size_bytes` by
the delta against an existing row with the same clustering key (two's
complement `i64 → u64` cast and wrapping `fetch_add`), insert the row. -/
def Memtable.put (m : Memtable) (row : Row) : Memtable :=
  let partition_key := row.partition_key
  let clustering_key := row.clustering_key
  let partition := (cmpLookup pkCmp partition_key m.partitions).getD Partition.newP
  let row_size := calculate_row_size row
  let size' :=
    match cmpLookup optCkCmp clustering_key partition.rows with
    | some existing =>
      (m.size_bytes +
        (((row_size : Int) - (calculate_row_size existing : Int)) % 2 ^ 64).toNat) %
        2 ^ 64
    | none => (m.size_bytes + row_size) % 2 ^ 64
  { partitions :=
      cmpInsert pkCmp partition_key
        { partition with rows := cmpInsert optCkCmp clustering_key row partition.rows }
        m.partitions
    size_bytes := size' }

/-- `Memtable::get`. -/
def Memtable.get (m : Memtable) (partition_key : PartitionKey)
    (clustering_key : Option ClusteringKey) : Option Row :=
  match cmpLookup pkCmp partition_key m.partitions with
  | some p => cmpLookup optCkCmp clustering_key p.rows
  | none => none

/-- `Memtable::range_scan`: `rows.range(start..=end)` over the ordered map —
the entries whose key lies between the two `Option<ClusteringKey>` endpoints
in the map's own ordering, in ascending key order. -/
def Memtable.range_scan (m : Memtable) (partition_key : PartitionKey)
    (start_clustering end_clustering : Option ClusteringKey) : List Row :=
  match cmpLookup pkCmp partition_key m.partitions with
  | some p =>
    (p.rows.filter (fun kr =>
      (optCkCmp start_clustering kr.1 != .gt) &&
        (optCkCmp kr.1 end_clustering != .gt))).map (·.2)
  | none => []

/-- `Memtable::get_all_partitions` (snapshot clone of the partition list). -/
def Memtable.get_all_partitions (m : Memtable) : List (PartitionKey × Partition) :=
  m.partitions

/-- Well-formed memtable: both map layers pairwise sorted by their
comparators, and each row stored under its own keys. -/
def Memtable.wf (m : Memtable) : Bool :=
  pairwiseLtB pkCmp m.partitions &&
    m.partitions.all (fun p =>
      pairwiseLtB optCkCmp p.2.rows &&
        p.2.rows.all (fun kr =>
          decide (kr.2.partition_key = p.1) && decide (kr.2.clustering_key = kr.1)))

/-- Sum of `f` over the values of an association list. -/
def listSum (f : α → Nat) (l : List (κ × α)) : Nat :=
  (l.map (fun kv => f kv.2)).sum

/-- Total of `calculate_row_size` over a partition's rows. -/
def rowsSizeSum (rows : List (Option ClusteringKey × Row)) : Nat :=
  listSum calculate_row_size rows

/-- Total of `calculate_row_size` over all rows of all partitions. -/
def memSizeSum (parts : List (PartitionKey × Partition)) : Nat :=
  listSum (fun p => rowsSizeSum p.rows) parts

/-- A memtable built by a sequence of `put`s on a fresh memtable. -/
def mkMemtable (rows : List Row) : Memtable :=
  rows.foldl Memtable.put Memtable.newM

/-! ## Bloom filter (`storage/bloom_filter.rs`)

The wrapper code (tag-prefixed key hashing, the serde implementation that
stores only `expected_items` and `false_positive_rate`, and the
deserializer that rebuilds a fresh filter) is modelled from the source.
Modelled from the spec: the `bloomfilter::Bloom` crate internals — §4.1
describes a bit array with hash parameters; its sizing formula and
sip-keyed probe hashing are external code, represented by a concrete
stand-in sizing (`bloomNumBits`/`bloomNumHashes`) and probe function
(`bloomProbe`).  Every theorem below depends only on the bitmap discipline
(fresh array all zeroes, `set` raises exactly the probed bits, `check`
tests them), not on the particular stand-ins. -/

/-- FNV-style fold standing in for `DefaultHasher`/sip hashing. -/
def hashFold (seed : Nat) (bs : ByteStr) : Nat :=
  bs.foldl (fun acc b => (acc * 1099511628211 + b) % 2 ^ 64) (seed % 2 ^ 64)

mutual
/-- `hash_cassandra_value` (`bloom_filter.rs`): domain-separated hashing —
each kind contributes a distinct tag byte before its payload bytes. -/
def hashBytesV : CassandraValue → ByteStr
  | .text s => 0 :: s
  | .int i => 1 :: i32le i
  | .bigint i => 2 :: i64le i
  | .uuidV u => 3 :: be16 u
  | .timestamp t => 4 :: i64le t
  | .boolean b => 5 :: [cond b 1 0]
  | .double bits => 6 :: u64le bits
  | .blob bs => 7 :: bs
  | .nullV => [8]
  | .mapV m => 9 :: hashBytesEntries m
  | .listV l => 10 :: hashBytesList l
  | .setV s => 11 :: hashBytesList s

/-- Hash bytes of the elements in order. -/
def hashBytesList : List CassandraValue → ByteStr
  | [] => []
  | v :: vs => hashBytesV v ++ hashBytesList vs

/-- Hash bytes of map entries (key bytes then value bytes). -/
def hashBytesEntries : List (ByteStr × CassandraValue) → ByteStr
  | [] => []
  | (k, v) :: rest => k ++ hashBytesV v ++ hashBytesEntries rest
end

/-- `BloomFilter::serialize_key`: hash the partition key through the
tag-prefixed encoding and emit the 64-bit digest little-endian. -/
def serialize_key (k : PartitionKey) : ByteStr :=
  u64le (hashFold 14695981039346656037 (hashBytesList k.components))

/-- Stand-in for the crate's bit-array sizing from `expected_items`. -/
def bloomNumBits (expected_items : Nat) : Nat := 10 * max 1 expected_items

/-- Stand-in for the crate's hash-function count. -/
def bloomNumHashes : Nat := 7

/-- The i-th probe index for a hashed key. -/
def bloomProbe (keyBytes : ByteStr) (i numBits : Nat) : Nat :=
  hashFold (i + 1) keyBytes % numBits

/-- `BloomFilter` (`storage/bloom_filter.rs`): the crate's bitmap plus the
two fields kept for serialization (`false_positive_rate` carried as the
`f64` bit pattern). -/
structure BloomFilter where
  bits : List Bool
  numBits : Nat
  numHashes : Nat
  expected_items : Nat
  false_positive_rate : Nat

/-- `BloomFilter::new`: a fresh filter with every bit clear. -/
def BloomFilter.newB (expected_items : Nat) (fpr : Nat) : BloomFilter :=
  { bits := List.replicate (bloomNumBits expected_items) false
    numBits := bloomNumBits expected_items
    numHashes := bloomNumHashes
    expected_items := expected_items
    false_positive_rate := fpr }

/-- Set the listed bit positions. -/
def setBits (bits : List Bool) : List Nat → List Bool
  | [] => bits
  | i :: rest => setBits (bits.set i true) rest

/-- `BloomFilter::add`. -/
def BloomFilter.add (b : BloomFilter) (k : PartitionKey) : BloomFilter :=
  { b with
    bits := setBits b.bits
      ((List.range b.numHashes).map
        (fun i => bloomProbe (serialize_key k) i b.numBits)) }

/-- `BloomFilter::might_contain`. -/
def BloomFilter.might_contain (b : BloomFilter) (k : PartitionKey) : Bool :=
  (List.range b.numHashes).all
    (fun i => b.bits.getD (bloomProbe (serialize_key k) i b.numBits) false)

/-- The serde `Serialize` impl: only the two parameters are written. -/
def bloomSerialize (b : BloomFilter) : Nat × Nat :=
  (b.expected_items, b.false_positive_rate)

/-- The serde `Deserialize` impl: rebuilds a fresh filter via
`BloomFilter::new`. -/
def bloomDeserialize (p : Nat × Nat) : BloomFilter :=
  BloomFilter.newB p.1 p.2

/-- Stable insertion into a sorted list (equal keys go after existing
ones), the building block modelling `Vec::sort_by`. -/
def insertSorted (cmp : α → α → Ordering) (x : α) : List α → List α
  | [] => [x]
  | y :: rest =>
    match cmp x y with
    | .lt => x :: y :: rest
    | _ => y :: insertSorted cmp x rest

/-- `Vec::sort_by` modelled as a stable insertion sort. -/
def sortBy (cmp : α → α → Ordering) (l : List α) : List α :=
  l.foldl (fun acc x => insertSorted cmp x acc) []

/-! ## Row/cell bincode layer (used by `sstable.rs` and `wal.rs`) -/

/-- Bincode `Option<u32>`: one-byte tag then value. -/
def encodeOptU32 : Option Nat → ByteStr
  | none => [0]
  | some n => 1 :: u32le n

/-- Bincode `Cell`: fields in declaration order. -/
def encodeCell (c : Cell) : ByteStr :=
  encodeValue c.value ++ i64le c.timestamp ++ encodeOptU32 c.ttl ++
    [cond c.is_deleted 1 0]

/-- Bincode `(String, Cell)` entries of a cell map. -/
def encodeCellEntries : List (ByteStr × Cell) → ByteStr
  | [] => []
  | (k, c) :: rest => u64le k.length ++ k ++ encodeCell c ++ encodeCellEntries rest

/-- Bincode `PartitionKey` (single `Vec` field). -/
def encodePK (pk : PartitionKey) : ByteStr :=
  u64le pk.components.length ++ encodeValues pk.components

/-- Bincode `ClusteringKey`. -/
def encodeCK (ck : ClusteringKey) : ByteStr :=
  u64le ck.components.length ++ encodeValues ck.components

/-- Bincode `Option<ClusteringKey>`. -/
def encodeOptCK : Option ClusteringKey → ByteStr
  | none => [0]
  | some ck => 1 :: encodeCK ck

/-- Bincode `HashMap<String, Cell>`. -/
def encodeCellMap (m : List (ByteStr × Cell)) : ByteStr :=
  u64le m.length ++ encodeCellEntries m

/-- Bincode `Row`: fields in declaration order. -/
def encodeRow (r : Row) : ByteStr :=
  encodePK r.partition_key ++ encodeOptCK r.clustering_key ++
    encodeCellMap r.cells ++ i64le r.timestamp

/-- Parse an `Option<u32>`. -/
def pOptU32 : ByteStr → Option (Option Nat × ByteStr)
  | 0 :: r => some (none, r)
  | 1 :: r =>
    match pU32 r with
    | some (n, r2) => some (some n, r2)
    | none => none
  | _ => none

/-- Parse a `Cell` (value parser fuelled). -/
def pCell (f : Nat) (bs : ByteStr) : Option (Cell × ByteStr) :=
  match parseValue f bs with
  | some (v, r1) =>
    match pI64 r1 with
    | some (ts, r2) =>
      match pOptU32 r2 with
      | some (ttl, r3) =>
        match pBool r3 with
        | some (d, r4) => some (⟨v, ts, ttl, d⟩, r4)
        | none => none
      | none => none
    | none => none
  | none => none

/-- Parse one `(String, Cell)` entry. -/
def pCellEntry (f : Nat) (bs : ByteStr) :
    Option ((ByteStr × Cell) × ByteStr) :=
  match pU64 bs with
  | some (n, r1) =>
    match pBytes n r1 with
    | some (k, r2) =>
      match pCell f r2 with
      | some (c, r3) => some ((k, c), r3)
      | none => none
    | none => none
  | none => none

/-- Parse a `PartitionKey`. -/
def pPK (f : Nat) (bs : ByteStr) : Option (PartitionKey × ByteStr) :=
  match pU64 bs with
  | some (n, r1) =>
    match parseCount (parseValue f) n r1 with
    | some (l, r2) => some (⟨l⟩, r2)
    | none => none
  | none => none

/-- Parse a `ClusteringKey`. -/
def pCK (f : Nat) (bs : ByteStr) : Option (ClusteringKey × ByteStr) :=
  match pU64 bs with
  | some (n, r1) =>
    match parseCount (parseValue f) n r1 with
    | some (l, r2) => some (⟨l⟩, r2)
    | none => none
  | none => none

/-- Parse an `Option<ClusteringKey>`. -/
def pOptCK (f : Nat) : ByteStr → Option (Option ClusteringKey × ByteStr)
  | 0 :: r => some (none, r)
  | 1 :: r =>
    match pCK f r with
    | some (ck, r2) => some (some ck, r2)
    | none => none
  | _ => none

/-- Parse a `Row`. -/
def pRow (f : Nat) (bs : ByteStr) : Option (Row × ByteStr) :=
  match pPK f bs with
  | some (pk, r1) =>
    match pOptCK f r1 with
    | some (ck, r2) =>
      match pU64 r2 with
      | some (n, r3) =>
        match parseCount (pCellEntry f) n r3 with
        | some (cells, r4) =>
          match pI64 r4 with
          | some (ts, r5) => some (⟨pk, ck, cells, ts⟩, r5)
          | none => none
        | none => none
      | none => none
    | none => none
  | none => none

/-- `bincode::deserialize` of a `Row` from an exact slice. -/
def decodeRow (bs : ByteStr) : Option Row :=
  match pRow (bs.length + 1) bs with
  | some (r, _) => some r
  | none => none

/-- Well-formed cell: value well-formed, machine-range timestamp and TTL. -/
def wfCell (c : Cell) : Bool :=
  wfValue c.value && decide (-(2 ^ 63) ≤ c.timestamp) &&
    decide (c.timestamp < 2 ^ 63) &&
    (match c.ttl with
     | none => true
     | some n => decide (n < 2 ^ 32))

/-- Well-formed cell map. -/
def wfCells : List (ByteStr × Cell) → Bool
  | [] => true
  | (k, c) :: rest => decide (k.length < 2 ^ 64) && wfCell c && wfCells rest

/-- Well-formed row: all components machine-representable. -/
def wfRow (r : Row) : Bool :=
  wfValues r.partition_key.components &&
    decide (r.partition_key.components.length < 2 ^ 64) &&
    (match r.clustering_key with
     | none => true
     | some ck => wfValues ck.components &&
         decide (ck.components.length < 2 ^ 64)) &&
    decide (r.cells.length < 2 ^ 64) && wfCells r.cells &&
    decide (-(2 ^ 63) ≤ r.timestamp) && decide (r.timestamp < 2 ^ 63)

/-- Greatest value depth occurring in a cell map. -/
def depthCells : List (ByteStr × Cell) → Nat
  | [] => 0
  | (_, c) :: rest => max (depthV c.value) (depthCells rest)

/-- Greatest value depth in an optional clustering key. -/
def depthOptCK : Option ClusteringKey → Nat
  | none => 0
  | some c => depthList c.components

/-- Greatest value depth occurring in a row. -/
def depthRow (r : Row) : Nat :=
  max (depthList r.partition_key.components)
    (max (depthOptCK r.clustering_key) (depthCells r.cells))

/-! ## SSTable (`storage/sstable.rs`)

Compression is by external crates; the spec requires only lossless block
codecs (§4.3), so `Modelled from the spec:` LZ4 is the documented
size-prepended framing over a lossless body, Snappy and ZSTD are lossless
bodies, and the `zstd::bulk::decompress(data, 1024*1024)` call's 1 MiB
output cap — which is in the source — is kept: larger blocks fail to
decompress. -/

/-- `CompressionType` (`sstable.rs`). -/
inductive CompressionType where
  | noneC
  | lz4
  | snappy
  | zstd

/-- Block compression; LZ4 prepends the uncompressed size (`u32`). -/
def compress (c : CompressionType) (data : ByteStr) : ByteStr :=
  match c with
  | .noneC => data
  | .lz4 => u32le data.length ++ data
  | .snappy => data
  | .zstd => data

/-- Block decompression; ZSTD refuses blocks over the source's 1 MiB cap. -/
def decompress (c : CompressionType) (data : ByteStr) : Option ByteStr :=
  match c with
  | .noneC => some data
  | .lz4 =>
    match pU32 data with
    | some (n, r) => if r.length = n then some r else none
    | none => none
  | .snappy => some data
  | .zstd => if data.length > 1024 * 1024 then none else some data

/-- The row comparator `serialize_partition` passes to `sort_by`:
`None` clustering keys sort first, ties by `ClusteringKey::cmp`. -/
def rowCmpSrc (a b : Row) : Ordering :=
  match a.clustering_key, b.clustering_key with
  | some ak, some bk => ckCmp ak bk
  | none, some _ => .lt
  | some _, none => .gt
  | none, none => .eq

/-- The uncompressed partition block: length-prefixed static map, then the
count of rows sorted by clustering key, each length-prefixed. All three
`u32` prefixes are produced by tokio's `write_u32`, i.e. **big-endian**,
whereas `deserialize_partition` reads each of them back with
`u32::from_le_bytes`. -/
def partitionData (p : Partition) : ByteStr :=
  let static_data := encodeCellMap p.static_columns
  let rows := sortBy rowCmpSrc (p.rows.map (fun kr => kr.2))
  u32be static_data.length ++ static_data ++ u32be rows.length ++
    (rows.map (fun r => u32be (encodeRow r).length ++ encodeRow r)).flatten

/-- `SSTable::serialize_partition`: the partition block, compressed. -/
def serialize_partition (p : Partition) (compression : CompressionType) :
    ByteStr :=
  compress compression (partitionData p)

/-- Full-slice decode of the static-column map. -/
def decodeStaticMap (bs : ByteStr) : Option (List (ByteStr × Cell)) :=
  match pU64 bs with
  | some (n, r1) =>
    match parseCount (pCellEntry (bs.length + 1)) n r1 with
    | some (m, _) => some m
    | none => none
  | none => none

/-- The row-reading loop of `deserialize_partition`: each row is
length-prefixed, decoded, and inserted into the fresh ordered map keyed by
its own clustering key. -/
def readRows : Nat → ByteStr → List (Option ClusteringKey × Row) →
    Option (List (Option ClusteringKey × Row))
  | 0, _, acc => some acc
  | n + 1, bs, acc =>
    match pU32 bs with
    | some (len, r1) =>
      match pBytes len r1 with
      | some (rb, r2) =>
        match decodeRow rb with
        | some row =>
          readRows n r2 (cmpInsert optCkCmp row.clustering_key row acc)
        | none => none
      | none => none
    | none => none

/-- `SSTable::deserialize_partition`. -/
def deserialize_partition (data : ByteStr) (compression : CompressionType) :
    Option Partition :=
  match decompress compression data with
  | none => none
  | some d =>
    match pU32 d with
    | some (static_size, r1) =>
      match pBytes static_size r1 with
      | some (static_data, r2) =>
        match decodeStaticMap static_data with
        | some static_columns =>
          match pU32 r2 with
          | some (row_count, r3) =>
            match readRows row_count r3 [] with
            | some rows => some ⟨rows, static_columns⟩
            | none => none
          | none => none
        | none => none
      | none => none
    | none => none

/-- `SSTableHeader` encoding: fixed-width bincode fields. -/
def encodeHeader (compressionTag : Nat) (minT maxT : Int)
    (partitionCount bloomOff indexOff summaryOff : Nat) : ByteStr :=
  u32le 1 ++ u32le compressionTag ++ i64le minT ++ i64le maxT ++
    u64le partitionCount ++ u64le bloomOff ++ u64le indexOff ++
    u64le summaryOff

/-- The reserved header size (`bincode::serialized_size` of the
placeholder header). -/
def headerSize : Nat := (encodeHeader 0 0 0 0 0 0 0).length

/-- Bincode tag of a `CompressionType` variant. -/
def compressionTag : CompressionType → Nat
  | .noneC => 0
  | .lz4 => 1
  | .snappy => 2
  | .zstd => 3

/-- The per-partition write loop of `create_from_memtable`: returns the
`(partition key, file offset)` pairs in write order, the data-block bytes,
and the total block size. Each block's length prefix comes from tokio's
`write_u32`, i.e. **big-endian** (while `read_partition` later parses it
little-endian). -/
def buildBlocks (compression : CompressionType) :
    Nat → List (PartitionKey × Partition) →
    List (PartitionKey × Nat) × ByteStr × Nat
  | _, [] => ([], [], 0)
  | offset, (pk, part) :: rest =>
    let pd := serialize_partition part compression
    let r := buildBlocks compression (offset + (4 + pd.length)) rest
    ((pk, offset) :: r.1, (u32be pd.length ++ pd) ++ r.2.1,
      (4 + pd.length) + r.2.2)

/-- `SSTable::build_summary_index`: every 128th entry of the full index. -/
def build_summary_index (full_index : List (PartitionKey × Nat)) :
    List (PartitionKey × Nat) :=
  (full_index.enum.filter (fun p => p.1 % 128 == 0)).map (fun p => p.2)

/-- Serialized form of an index map (bincode `BTreeMap<PartitionKey, u64>`). -/
def encodeIndex (idx : List (PartitionKey × Nat)) : ByteStr :=
  u64le idx.length ++
    (idx.map (fun kv => encodePK kv.1 ++ u64le kv.2)).flatten

/-- Row-timestamp fold of the loop that maintains `min_timestamp` /
`max_timestamp` (note: it visits `row.timestamp`, not the cells). -/
def tsFold (parts : List (PartitionKey × Partition)) : Int × Int :=
  parts.foldl
    (fun acc pp =>
      pp.2.rows.foldl
        (fun a kr => (min a.1 kr.2.timestamp, max a.2 kr.2.timestamp)) acc)
    (2 ^ 63 - 1, -(2 ^ 63))

/-- `SSTable` (`sstable.rs`); `file` holds the bytes of `<id>-Data.db`
(the random UUID id and path are omitted: no modelled operation reads
them). -/
structure SSTable where
  bloom_filter : BloomFilter
  partition_index : List (PartitionKey × Nat)
  summary_index : List (PartitionKey × Nat)
  min_timestamp : Int
  max_timestamp : Int
  compression : CompressionType
  size_bytes : Nat
  file : ByteStr

/-- `SSTable::create_from_memtable`: sort the partitions, write each
length-prefixed compressed block while adding its key to the bloom filter
and the partition index and folding the row-timestamp range, then append
the serialized bloom filter, full index and summary index, and finally
seek to 0 and write the header. The 56-byte header space is only
*counted*: `current_offset` starts at `header_size` but no placeholder is
ever written, so the data stream begins at physical offset 0 while every
recorded offset is 56 bytes past its block, and the closing header write
overwrites the stream's first 56 bytes — hence
`file := header ++ stream.drop headerSize`. -/
def create_from_memtable (m : Memtable) (compression : CompressionType) :
    SSTable :=
  let parts := sortBy (fun a b => pkCmp a.1 b.1) m.get_all_partitions
  let bloom := parts.foldl (fun b pp => b.add pp.1)
    (BloomFilter.newB m.partitions.length 4576918229304087675)
  let built := buildBlocks compression headerSize parts
  let partition_index :=
    built.1.foldl (fun acc kv => cmpInsert pkCmp kv.1 kv.2 acc) []
  let ts := tsFold parts
  let bloom_filter_offset := headerSize + built.2.1.length
  let bloomData := u64le bloom.expected_items ++ u64le bloom.false_positive_rate
  let partition_index_offset := bloom_filter_offset + bloomData.length
  let indexData := encodeIndex partition_index
  let summary_index := build_summary_index partition_index
  let summary_index_offset := partition_index_offset + indexData.length
  let header := encodeHeader (compressionTag compression) ts.1 ts.2
    partition_index.length bloom_filter_offset partition_index_offset
    summary_index_offset
  { bloom_filter := bloom
    partition_index := partition_index
    summary_index := summary_index
    min_timestamp := ts.1
    max_timestamp := ts.2
    compression := compression
    size_bytes := built.2.2
    file := header ++
      (built.2.1 ++ bloomData ++ indexData ++
        encodeIndex summary_index).drop headerSize }

/-- Seek to `off`, read a `u32` length, then exactly that many bytes. -/
def blockAt (bs : ByteStr) (off : Nat) : Option ByteStr :=
  match pU32 (bs.drop off) with
  | some (len, r1) =>
    match pBytes len r1 with
    | some (pd, _) => some pd
    | none => none
  | none => none

/-- `SSTable::read_partition` continued: bloom check, index lookup, then
the length-prefixed read at the recorded offset. -/
def read_partition (s : SSTable) (partition_key : PartitionKey) :
    Except Unit (Option Partition) :=
  if s.bloom_filter.might_contain partition_key = false then .ok none
  else
    match cmpLookup pkCmp partition_key s.partition_index with
    | none => .ok none
    | some offset =>
      match blockAt s.file offset with
      | none => .error ()
      | some pd =>
        match deserialize_partition pd s.compression with
        | none => .error ()
        | some p => .ok (some p)

/-- Bitmap discipline: `wfB` ties the array length to `numBits`. -/
def BloomFilter.wfB (b : BloomFilter) : Bool :=
  decide (b.bits.length = b.numBits) && decide (0 < b.numBits) &&
    decide (b.numHashes = bloomNumHashes)

/-- A one-row memtable whose single partition serializes to just over the
1 MiB ZSTD decompression cap of the read path. -/
def bigPK : PartitionKey := ⟨[CassandraValue.int 1]⟩

/-- A small flushable memtable used to instantiate the amended flush
theorem. -/
def smallRow : Row :=
  ⟨bigPK, none, [([97], ⟨CassandraValue.int 5, 0, none, false⟩)], 0⟩

def smallPart : Partition := ⟨[(none, smallRow)], []⟩

def smallMem : Memtable := ⟨[(bigPK, smallPart)], 0⟩

/-- A memtable whose single row has write-timestamp 10 but carries a cell
whose own timestamp is 99. -/
def c6Cell : Cell := ⟨CassandraValue.int 7, 99, none, false⟩

def c6Row : Row := ⟨bigPK, none, [([98], c6Cell)], 10⟩

def c6Part : Partition := ⟨[(none, c6Row)], []⟩

def c6Mem : Memtable := ⟨[(bigPK, c6Part)], 0⟩

/-- `Mutation` (`wal.rs`). -/
inductive Mutation : Type where
  | insert (row : Row)
  | delete (partition_key : PartitionKey)
      (clustering_key : Option ClusteringKey)
  | partitionDelete (partition_key : PartitionKey)
deriving DecidableEq

/-- `CommitLogEntry` (`wal.rs`). -/
structure CommitLogEntry where
  keyspace : ByteStr
  table : ByteStr
  mutation : Mutation
  timestamp : Int
deriving DecidableEq

/-- Bincode `Mutation`: `u32` variant tag then the payload. -/
def encodeMutation : Mutation → ByteStr
  | .insert r => u32le 0 ++ encodeRow r
  | .delete pk ck => u32le 1 ++ encodePK pk ++ encodeOptCK ck
  | .partitionDelete pk => u32le 2 ++ encodePK pk

/-- Bincode `CommitLogEntry`: fields in declaration order. -/
def encodeCLE (e : CommitLogEntry) : ByteStr :=
  u64le e.keyspace.length ++ e.keyspace ++ u64le e.table.length ++ e.table ++
    encodeMutation e.mutation ++ i64le e.timestamp

/-- Parse a `Mutation`. -/
def pMutation (f : Nat) (bs : ByteStr) : Option (Mutation × ByteStr) :=
  match pU32 bs with
  | some (0, r) =>
    match pRow f r with
    | some (row, r2) => some (.insert row, r2)
    | none => none
  | some (1, r) =>
    match pPK f r with
    | some (pk, r2) =>
      match pOptCK f r2 with
      | some (ck, r3) => some (.delete pk ck, r3)
      | none => none
    | none => none
  | some (2, r) =>
    match pPK f r with
    | some (pk, r2) => some (.partitionDelete pk, r2)
    | none => none
  | _ => none

/-- Parse a `CommitLogEntry`. -/
def pCLE (f : Nat) (bs : ByteStr) : Option (CommitLogEntry × ByteStr) :=
  match pU64 bs with
  | some (kn, r1) =>
    match pBytes kn r1 with
    | some (ksp, r2) =>
      match pU64 r2 with
      | some (tn, r3) =>
        match pBytes tn r3 with
        | some (tbl, r4) =>
          match pMutation f r4 with
          | some (mu, r5) =>
            match pI64 r5 with
            | some (ts, r6) => some (⟨ksp, tbl, mu, ts⟩, r6)
            | none => none
          | none => none
        | none => none
      | none => none
    | none => none
  | none => none

/-- `bincode::deserialize` of a `CommitLogEntry` from an exact slice. -/
def decodeCLE (bs : ByteStr) : Option CommitLogEntry :=
  match pCLE (bs.length + 1) bs with
  | some (e, _) => some e
  | none => none

/-- The entry-reading loop of `replay_from_segment`: a 4-byte length, then
exactly that many bytes, then deserialize. A failed length read breaks the
loop (end of file); a failed body read or a deserialization failure is an
error. Each successful step consumes at least four bytes, so the fuel
`bs.length + 1` never runs out before the loop's own exit. -/
def replayLoop : Nat → ByteStr → List CommitLogEntry →
    Except Unit (List CommitLogEntry)
  | 0, _, acc => .ok acc
  | fuel + 1, bs, acc =>
    match pU32 bs with
    | none => .ok acc
    | some (size, r1) =>
      match pBytes size r1 with
      | none => .error ()
      | some (eb, r2) =>
        match decodeCLE eb with
        | none => .error ()
        | some e => replayLoop fuel r2 (acc ++ [e])

/-- The `commitlog-<id>.log` files on disk, as a map from segment id to
file contents. -/
def segFind : List (Nat × ByteStr) → Nat → Option ByteStr
  | [], _ => none
  | (i, bs) :: rest, j => if i = j then some bs else segFind rest j

/-- `CommitLog::replay_from_segment`: a missing segment file yields no
entries. -/
def replay_from_segment (store : List (Nat × ByteStr)) (segment_id : Nat) :
    Except Unit (List CommitLogEntry) :=
  match segFind store segment_id with
  | none => .ok []
  | some bs => replayLoop (bs.length + 1) bs []

/-- Greatest segment id present in the store. -/
def maxSegId (store : List (Nat × ByteStr)) : Nat :=
  store.foldl (fun a kv => max a kv.1) 0

/-- The segment loop of `replay_all`: read segment ids upward from 0 and
stop at the first segment that yields no entries. The fuel
`maxSegId store + 2` outlasts the loop, which provably breaks by the
first id beyond every stored segment. -/
def replayAllLoop (store : List (Nat × ByteStr)) :
    Nat → Nat → List CommitLogEntry → Except Unit (List CommitLogEntry)
  | 0, _, acc => .ok acc
  | fuel + 1, segment_id, acc =>
    match replay_from_segment store segment_id with
    | .error e => .error e
    | .ok entries =>
      if entries.isEmpty then .ok acc
      else replayAllLoop store fuel (segment_id + 1) (acc ++ entries)

/-- `CommitLog::replay_all`. -/
def replay_all (store : List (Nat × ByteStr)) :
    Except Unit (List CommitLogEntry) :=
  replayAllLoop store (maxSegId store + 2) 0 []

/-- A segment store with a hole: segments 0 and 2 exist and each holds one
entry, segment 1 is missing. -/
def segEntry0 : CommitLogEntry :=
  ⟨[107], [116], Mutation.partitionDelete bigPK, 0⟩

def segEntry2 : CommitLogEntry :=
  ⟨[107], [116], Mutation.partitionDelete bigPK, 2⟩

def seg0bytes : ByteStr :=
  u32le (encodeCLE segEntry0).length ++ encodeCLE segEntry0

def seg2bytes : ByteStr :=
  u32le (encodeCLE segEntry2).length ++ encodeCLE segEntry2

def walStore : List (Nat × ByteStr) := [(0, seg0bytes), (2, seg2bytes)]

/-- Errors of the database layer (`error.rs` variants reached by the
modelled operations). -/
inductive DBError : Type where
  | keyspaceNotFound
  | tableNotFound
  | walAppend
  | ioError
deriving DecidableEq

/-- `Table` (`database.rs`): SSTables in flush order plus the active
memtable (the schema and the sealed-memtable list are omitted: no modelled
operation reads them). -/
structure Table where
  sstables : List SSTable
  current_memtable : Memtable

/-- `Keyspace`: its tables (name and replication settings omitted: no
modelled operation reads them). -/
structure Keyspace where
  tables : List (ByteStr × Table)

/-- `CoreDB`: keyspaces, the commit log's appended entries, and the
memtable flush threshold in MiB. -/
structure CoreDB where
  keyspaces : List (ByteStr × Keyspace)
  commit_log : List CommitLogEntry
  memtable_flush_threshold_mb : Nat

/-- `HashMap::get` over the modelled string-keyed maps. -/
def strFind {α : Type} : List (ByteStr × α) → ByteStr → Option α
  | [], _ => none
  | (k, v) :: rest, q => if k = q then some v else strFind rest q

/-- In-place update of a string-keyed map entry. -/
def strUpdate {α : Type} (f : α → α) :
    List (ByteStr × α) → ByteStr → List (ByteStr × α)
  | [], _ => []
  | (k, v) :: rest, q =>
    if k = q then (k, f v) :: rest else (k, v) :: strUpdate f rest q

/-- `flush_memtable` applied when the size check fires: the active
memtable is replaced by a fresh one and its SSTable is appended to the
table's list (flush order: newest last). -/
def flushCheckT (threshold_mb : Nat) (t : Table) : Table :=
  if t.current_memtable.size_bytes > threshold_mb * 1024 * 1024 then
    { sstables := t.sstables ++
        [create_from_memtable t.current_memtable CompressionType.lz4],
      current_memtable := Memtable.newM }
  else t

/-- `check_memtable_flush`: every table of every keyspace is checked. -/
def CoreDB.check_memtable_flush (db : CoreDB) : CoreDB :=
  { db with keyspaces := db.keyspaces.map (fun kv =>
      (kv.1, ⟨kv.2.tables.map (fun tv =>
        (tv.1, flushCheckT db.memtable_flush_threshold_mb tv.2))⟩)) }

/-- `tbl.current_memtable.put(row)` on a located table. -/
def putInTable (row : Row) (t : Table) : Table :=
  { t with current_memtable := t.current_memtable.put row }

/-- The same put lifted to the owning keyspace. -/
def putInKeyspace (table : ByteStr) (row : Row) (ks : Keyspace) : Keyspace :=
  ⟨strUpdate (putInTable row) ks.tables table⟩

/-- `CoreDB::insert_row`. The WAL entry is built and appended *first*
(`walOk` models whether the file append succeeds); only then are the
keyspace and table looked up. On success the row goes into the active
memtable and the flush check runs. -/
def CoreDB.insert_row (db : CoreDB) (walOk : Bool)
    (keyspace table : ByteStr) (row : Row) (now : Int) :
    CoreDB × Except DBError Unit :=
  let entry : CommitLogEntry := ⟨keyspace, table, Mutation.insert row, now⟩
  if walOk = false then (db, .error .walAppend)
  else
    let db1 : CoreDB :=
      ⟨db.keyspaces, db.commit_log ++ [entry], db.memtable_flush_threshold_mb⟩
    match strFind db1.keyspaces keyspace with
    | none => (db1, .error .keyspaceNotFound)
    | some ks =>
      match strFind ks.tables table with
      | none => (db1, .error .tableNotFound)
      | some _ =>
        let db2 : CoreDB :=
          ⟨strUpdate (putInKeyspace table row) db1.keyspaces keyspace,
            db1.commit_log, db1.memtable_flush_threshold_mb⟩
        (db2.check_memtable_flush, .ok ())

/-- What `get_row` hands back: the source returns the memtable's `Row` on
a memtable hit but the SSTable branch returns the value of
`read_partition`, which is a whole `Partition` bound to a variable named
`row`. -/
inductive GetResult : Type where
  | row (r : Row)
  | part (p : Partition)

/-- The SSTable loop of `get_row`: first table in vector order (oldest
first, since flush appends at the end) whose `read_partition` finds the
partition; read errors propagate. -/
def sstablesScan : List SSTable → PartitionKey →
    Except DBError (Option Partition)
  | [], _ => .ok none
  | s :: rest, pk =>
    match read_partition s pk with
    | .error _ => .error .ioError
    | .ok (some p) => .ok (some p)
    | .ok none => sstablesScan rest pk

/-- `CoreDB::get_row`: missing keyspace or table yields `Ok(None)`; a
memtable hit returns immediately; otherwise the SSTables are scanned in
vector order and the first partition found is returned as-is (the
clustering key filters nothing in either branch). -/
def CoreDB.get_row (db : CoreDB) (keyspace table : ByteStr)
    (pk : PartitionKey) (ck : Option ClusteringKey) :
    Except DBError (Option GetResult) :=
  match strFind db.keyspaces keyspace with
  | none => .ok none
  | some ks =>
    match strFind ks.tables table with
    | none => .ok none
    | some tbl =>
      match tbl.current_memtable.get pk ck with
      | some row => .ok (some (.row row))
      | none =>
        match sstablesScan tbl.sstables pk with
        | .error e => .error e
        | .ok (some p) => .ok (some (.part p))
        | .ok none => .ok none

/-- Concrete C1 data: the same (partition key, clustering key, column)
carries a cell with timestamp 1 in the active memtable and a cell with
timestamp 2 in an SSTable. -/
def c1CellOld : Cell := ⟨CassandraValue.int 1, 1, none, false⟩

def c1CellNew : Cell := ⟨CassandraValue.int 2, 2, none, false⟩

def c1RowOld : Row := ⟨bigPK, none, [([99], c1CellOld)], 1⟩

def c1RowNew : Row := ⟨bigPK, none, [([99], c1CellNew)], 2⟩

def c1PartNew : Partition := ⟨[(none, c1RowNew)], []⟩

def c1MemNew : Memtable := ⟨[(bigPK, c1PartNew)], 0⟩

def c1MemOld : Memtable := ⟨[(bigPK, ⟨[(none, c1RowOld)], []⟩)], 0⟩

def c1Sst : SSTable := create_from_memtable c1MemNew CompressionType.noneC

def c1DB : CoreDB :=
  ⟨[([107], ⟨[([116], ⟨[c1Sst], c1MemOld⟩)]⟩)], [], 64⟩

/-- A database with no keyspaces at all. -/
def c2DB : CoreDB := ⟨[], [], 64⟩

/-! ## Round-trip lemmas for the byte layer -/

theorem pU32_u32le (n : Nat) (rest : ByteStr) :
    pU32 (u32le n ++ rest) = some (n % 2 ^ 32, rest) := by
  simp only [u32le, List.cons_append, List.nil_append, pU32]
  congr 2
  omega

theorem pU64_u64le (n : Nat) (rest : ByteStr) :
    pU64 (u64le n ++ rest) = some (n % 2 ^ 64, rest) := by
  simp only [u64le, List.cons_append, List.nil_append, pU64]
  congr 2
  omega

theorem pBytes_append (s rest : ByteStr) :
    pBytes s.length (s ++ rest) = some (s, rest) := by
  simp [pBytes, List.take_left, List.drop_left]

theorem pI32_i32le (i : Int) (rest : ByteStr) (h1 : -(2 ^ 31) ≤ i)
    (h2 : i < 2 ^ 31) : pI32 (i32le i ++ rest) = some (i, rest) := by
  have h3 : (0 : Int) ≤ i % 2 ^ 32 := Int.emod_nonneg i (by norm_num)
  have h4 : i % 2 ^ 32 < 2 ^ 32 := Int.emod_lt_of_pos i (by norm_num)
  simp only [i32le, pI32, pU32_u32le]
  congr 2
  split <;> omega

theorem pI64_i64le (i : Int) (rest : ByteStr) (h1 : -(2 ^ 63) ≤ i)
    (h2 : i < 2 ^ 63) : pI64 (i64le i ++ rest) = some (i, rest) := by
  have h3 : (0 : Int) ≤ i % 2 ^ 64 := Int.emod_nonneg i (by norm_num)
  have h4 : i % 2 ^ 64 < 2 ^ 64 := Int.emod_lt_of_pos i (by norm_num)
  simp only [i64le, pI64, pU64_u64le]
  congr 2
  split <;> omega

theorem pBool_encode (b : Bool) (rest : ByteStr) :
    pBool (cond b 1 0 :: rest) = some (b, rest) := by
  cases b <;> rfl

theorem beBytes_length (n : Nat) : ∀ u, (beBytes n u).length = n := by
  induction n with
  | zero => intro u; rfl
  | succ n ih => intro u; simp [beBytes, ih]

theorem be16_length (u : Nat) : (be16 u).length = 16 :=
  beBytes_length 16 u

theorem foldl_beBytes (n : Nat) : ∀ (u acc : Nat), u < 2 ^ (8 * n) →
    List.foldl (fun a b => a * 256 + b) acc (beBytes n u) =
      acc * 2 ^ (8 * n) + u := by
  induction n with
  | zero =>
    intro u acc h
    interval_cases u
    simp [beBytes]
  | succ n ih =>
    intro u acc h
    have hp : 0 < 2 ^ (8 * n) := Nat.pos_pow_of_pos _ (by norm_num)
    have hm : u % 2 ^ (8 * n) < 2 ^ (8 * n) := Nat.mod_lt _ hp
    have hpow : 2 ^ (8 * (n + 1)) = 2 ^ (8 * n) * 256 := by
      rw [Nat.mul_succ, pow_add]
      norm_num
    simp only [beBytes, List.foldl_cons]
    rw [ih (u % 2 ^ (8 * n)) _ hm]
    have hdiv : u / 2 ^ (8 * n) < 256 := by
      apply Nat.div_lt_of_lt_mul
      calc u < 2 ^ (8 * (n + 1)) := h
        _ = 2 ^ (8 * n) * 256 := hpow
    rw [Nat.mod_eq_of_lt hdiv, hpow]
    have hmod : u / 2 ^ (8 * n) * 2 ^ (8 * n) + u % 2 ^ (8 * n) = u := by
      rw [Nat.mul_comm]
      exact Nat.div_add_mod u (2 ^ (8 * n))
    have hring : (acc * 256 + u / 2 ^ (8 * n)) * 2 ^ (8 * n) + u % 2 ^ (8 * n) =
        acc * (2 ^ (8 * n) * 256) +
          (u / 2 ^ (8 * n) * 2 ^ (8 * n) + u % 2 ^ (8 * n)) := by ring
    rw [hring, hmod]

theorem decodeBE16_be16 (u : Nat) (h : u < 2 ^ 128) :
    decodeBE16 (be16 u) = u := by
  have := foldl_beBytes 16 u 0 (by norm_num at h ⊢; omega)
  simpa [decodeBE16, be16] using this

theorem depthV_pos (v : CassandraValue) : 1 ≤ depthV v := by
  cases v <;> simp [depthV]

theorem wfValues_mem {l : List CassandraValue} (h : wfValues l = true)
    {v : CassandraValue} (hv : v ∈ l) : wfValue v = true := by
  induction l with
  | nil => cases hv
  | cons w ws ihl =>
    simp only [wfValues, Bool.and_eq_true] at h
    rcases List.mem_cons.mp hv with rfl | hv
    · exact h.1
    · exact ihl h.2 hv

theorem wfEntries_mem {m : List (ByteStr × CassandraValue)}
    (h : wfEntries m = true) {kv : ByteStr × CassandraValue} (hkv : kv ∈ m) :
    kv.1.length < 2 ^ 64 ∧ wfValue kv.2 = true := by
  induction m with
  | nil => cases hkv
  | cons w ws ihl =>
    obtain ⟨k, v⟩ := w
    simp only [wfEntries, Bool.and_eq_true, decide_eq_true_eq] at h
    rcases List.mem_cons.mp hkv with rfl | hkv
    · exact ⟨h.1.1, h.1.2⟩
    · exact ihl h.2 hkv

theorem depthList_mem {l : List CassandraValue} {v : CassandraValue}
    (hv : v ∈ l) : depthV v ≤ depthList l := by
  induction l with
  | nil => cases hv
  | cons w ws ihl =>
    rcases List.mem_cons.mp hv with rfl | hv
    · simp [depthList, Nat.le_max_left]
    · simp only [depthList]
      exact le_trans (ihl hv) (Nat.le_max_right _ _)

theorem depthEntries_mem {m : List (ByteStr × CassandraValue)}
    {kv : ByteStr × CassandraValue} (hkv : kv ∈ m) :
    depthV kv.2 ≤ depthEntries m := by
  induction m with
  | nil => cases hkv
  | cons w ws ihl =>
    obtain ⟨k, v⟩ := w
    rcases List.mem_cons.mp hkv with rfl | hkv
    · simp [depthEntries, Nat.le_max_left]
    · simp only [depthEntries]
      exact le_trans (ihl hkv) (Nat.le_max_right _ _)

theorem parse_text (f : Nat) (s : ByteStr) (rest : ByteStr)
    (h : s.length < 2 ^ 64) :
    parseValue (f + 1) (encodeValue (.text s) ++ rest) = some (.text s, rest) := by
  simp only [encodeValue, List.append_assoc, parseValue, pU32_u32le]
  norm_num
  rw [pU64_u64le, Nat.mod_eq_of_lt h]
  simp [pBytes_append]

theorem parse_int (f : Nat) (i : Int) (rest : ByteStr) (h1 : -(2 ^ 31) ≤ i)
    (h2 : i < 2 ^ 31) :
    parseValue (f + 1) (encodeValue (.int i) ++ rest) = some (.int i, rest) := by
  simp only [encodeValue, List.append_assoc, parseValue, pU32_u32le]
  norm_num
  rw [pI32_i32le i rest h1 h2]

theorem parse_bigint (f : Nat) (i : Int) (rest : ByteStr) (h1 : -(2 ^ 63) ≤ i)
    (h2 : i < 2 ^ 63) :
    parseValue (f + 1) (encodeValue (.bigint i) ++ rest) = some (.bigint i, rest) := by
  simp only [encodeValue, List.append_assoc, parseValue, pU32_u32le]
  norm_num
  rw [pI64_i64le i rest h1 h2]

theorem parse_uuid (f : Nat) (u : Nat) (rest : ByteStr) (h : u < 2 ^ 128) :
    parseValue (f + 1) (encodeValue (.uuidV u) ++ rest) = some (.uuidV u, rest) := by
  simp only [encodeValue, List.append_assoc, parseValue, pU32_u32le]
  norm_num
  rw [pU64_u64le]
  norm_num
  have h16 : pBytes 16 (be16 u ++ rest) = some (be16 u, rest) := by
    have := pBytes_append (be16 u) rest
    rwa [be16_length u] at this
  rw [h16]
  simp [decodeBE16_be16 u h]

theorem parse_timestamp (f : Nat) (t : Int) (rest : ByteStr)
    (h1 : -(2 ^ 63) ≤ t) (h2 : t < 2 ^ 63) :
    parseValue (f + 1) (encodeValue (.timestamp t) ++ rest) =
      some (.timestamp t, rest) := by
  simp only [encodeValue, List.append_assoc, parseValue, pU32_u32le]
  norm_num
  rw [pI64_i64le t rest h1 h2]

theorem parse_boolean (f : Nat) (b : Bool) (rest : ByteStr) :
    parseValue (f + 1) (encodeValue (.boolean b) ++ rest) =
      some (.boolean b, rest) := by
  simp only [encodeValue, List.cons_append, List.nil_append, List.append_assoc,
    parseValue, pU32_u32le]
  norm_num
  rw [show ((cond b 1 0 :: rest : ByteStr)) = cond b 1 0 :: rest from rfl,
    pBool_encode]

theorem parse_double (f : Nat) (bits : Nat) (rest : ByteStr)
    (h : bits < 2 ^ 64) :
    parseValue (f + 1) (encodeValue (.double bits) ++ rest) =
      some (.double bits, rest) := by
  simp only [encodeValue, List.append_assoc, parseValue, pU32_u32le]
  norm_num
  rw [pU64_u64le, Nat.mod_eq_of_lt h]

theorem parse_blob (f : Nat) (bs : ByteStr) (rest : ByteStr)
    (h : bs.length < 2 ^ 64) :
    parseValue (f + 1) (encodeValue (.blob bs) ++ rest) = some (.blob bs, rest) := by
  simp only [encodeValue, List.append_assoc, parseValue, pU32_u32le]
  norm_num
  rw [pU64_u64le, Nat.mod_eq_of_lt h]
  simp [pBytes_append]

theorem parse_null (f : Nat) (rest : ByteStr) :
    parseValue (f + 1) (encodeValue .nullV ++ rest) = some (.nullV, rest) := by
  simp only [encodeValue, parseValue, pU32_u32le]
  norm_num

theorem parseCount_encodeValues (f : Nat) (l : List CassandraValue)
    (rest : ByteStr)
    (H : ∀ v ∈ l, ∀ r, parseValue f (encodeValue v ++ r) = some (v, r)) :
    parseCount (parseValue f) l.length (encodeValues l ++ rest) =
      some (l, rest) := by
  induction l with
  | nil => simp [encodeValues, parseCount]
  | cons v vs ihl =>
    simp only [encodeValues, List.append_assoc, List.length_cons, parseCount,
      H v (by simp), ihl (fun w hw r => H w (by simp [hw]) r)]

theorem parseCount_encodeEntries (f : Nat)
    (m : List (ByteStr × CassandraValue)) (rest : ByteStr)
    (H : ∀ kv ∈ m, kv.1.length < 2 ^ 64 ∧
      ∀ r, parseValue f (encodeValue kv.2 ++ r) = some (kv.2, r)) :
    parseCount (pEntry (parseValue f)) m.length (encodeEntries m ++ rest) =
      some (m, rest) := by
  induction m with
  | nil => simp [encodeEntries, parseCount]
  | cons kv kvs ihl =>
    obtain ⟨k, v⟩ := kv
    obtain ⟨hk, hv⟩ := H (k, v) (by simp)
    simp only at hk hv
    simp only [encodeEntries, List.append_assoc, List.length_cons, parseCount,
      pEntry, pU64_u64le, Nat.mod_eq_of_lt hk, pBytes_append, hv,
      ihl (fun w hw => H w (by simp [hw]))]

theorem parse_mapV (f : Nat) (m : List (ByteStr × CassandraValue))
    (rest : ByteStr) (hlen : m.length < 2 ^ 64)
    (H : ∀ kv ∈ m, kv.1.length < 2 ^ 64 ∧
      ∀ r, parseValue f (encodeValue kv.2 ++ r) = some (kv.2, r)) :
    parseValue (f + 1) (encodeValue (.mapV m) ++ rest) = some (.mapV m, rest) := by
  simp only [encodeValue, List.append_assoc, parseValue, pU32_u32le]
  norm_num
  rw [pU64_u64le, Nat.mod_eq_of_lt hlen]
  simp only [parseCount_encodeEntries f m rest H]

theorem parse_listV (f : Nat) (l : List CassandraValue) (rest : ByteStr)
    (hlen : l.length < 2 ^ 64)
    (H : ∀ v ∈ l, ∀ r, parseValue f (encodeValue v ++ r) = some (v, r)) :
    parseValue (f + 1) (encodeValue (.listV l) ++ rest) = some (.listV l, rest) := by
  simp only [encodeValue, List.append_assoc, parseValue, pU32_u32le]
  norm_num
  rw [pU64_u64le, Nat.mod_eq_of_lt hlen]
  simp only [parseCount_encodeValues f l rest H]

theorem parse_setV (f : Nat) (l : List CassandraValue) (rest : ByteStr)
    (hlen : l.length < 2 ^ 64)
    (H : ∀ v ∈ l, ∀ r, parseValue f (encodeValue v ++ r) = some (v, r)) :
    parseValue (f + 1) (encodeValue (.setV l) ++ rest) = some (.setV l, rest) := by
  simp only [encodeValue, List.append_assoc, parseValue, pU32_u32le]
  norm_num
  rw [pU64_u64le, Nat.mod_eq_of_lt hlen]
  simp only [parseCount_encodeValues f l rest H]

/-- The bincode parser inverts the encoder, leaving the rest of the stream:
the key compositional round-trip property. -/
theorem parseValue_encode (fuel : Nat) :
    ∀ (v : CassandraValue) (rest : ByteStr), wfValue v = true →
    depthV v < fuel →
    parseValue fuel (encodeValue v ++ rest) = some (v, rest) := by
  induction fuel with
  | zero =>
    intro v rest _ hd
    exact absurd hd (by have := depthV_pos v; omega)
  | succ f ih =>
    intro v rest hwf hd
    cases v with
    | text s =>
      exact parse_text f s rest (by simpa [wfValue] using hwf)
    | int i =>
      simp only [wfValue, Bool.and_eq_true, decide_eq_true_eq] at hwf
      exact parse_int f i rest hwf.1 hwf.2
    | bigint i =>
      simp only [wfValue, Bool.and_eq_true, decide_eq_true_eq] at hwf
      exact parse_bigint f i rest hwf.1 hwf.2
    | uuidV u =>
      exact parse_uuid f u rest (by simpa [wfValue] using hwf)
    | timestamp t =>
      simp only [wfValue, Bool.and_eq_true, decide_eq_true_eq] at hwf
      exact parse_timestamp f t rest hwf.1 hwf.2
    | boolean b => exact parse_boolean f b rest
    | double bits =>
      exact parse_double f bits rest (by simpa [wfValue] using hwf)
    | blob bs =>
      exact parse_blob f bs rest (by simpa [wfValue] using hwf)
    | nullV => exact parse_null f rest
    | mapV m =>
      simp only [wfValue, Bool.and_eq_true, decide_eq_true_eq] at hwf
      refine parse_mapV f m rest hwf.1 (fun kv hkv => ?_)
      obtain ⟨hk, hv⟩ := wfEntries_mem hwf.2 hkv
      refine ⟨hk, fun r => ih kv.2 r hv ?_⟩
      have h1 := depthEntries_mem hkv
      simp only [depthV] at hd
      omega
    | listV l =>
      simp only [wfValue, Bool.and_eq_true, decide_eq_true_eq] at hwf
      refine parse_listV f l rest hwf.1 (fun v hv r => ?_)
      refine ih v r (wfValues_mem hwf.2 hv) ?_
      have h1 := depthList_mem hv
      simp only [depthV] at hd
      omega
    | setV s =>
      simp only [wfValue, Bool.and_eq_true, decide_eq_true_eq] at hwf
      refine parse_setV f s rest hwf.1 (fun v hv r => ?_)
      refine ih v r (wfValues_mem hwf.2 hv) ?_
      have h1 := depthList_mem hv
      simp only [depthV] at hd
      omega

theorem u32le_length (n : Nat) : (u32le n).length = 4 := rfl

theorem u64le_length (n : Nat) : (u64le n).length = 8 := rfl

theorem i32le_length (i : Int) : (i32le i).length = 4 := rfl

theorem i64le_length (i : Int) : (i64le i).length = 8 := rfl

mutual
theorem depthV_le_enc (v : CassandraValue) :
    depthV v ≤ (encodeValue v).length := by
  cases v with
  | mapV m =>
    have := depthEntries_le_enc m
    simp only [depthV, encodeValue, List.length_append, u32le_length, u64le_length]
    omega
  | listV l =>
    have := depthList_le_enc l
    simp only [depthV, encodeValue, List.length_append, u32le_length, u64le_length]
    omega
  | setV s =>
    have := depthList_le_enc s
    simp only [depthV, encodeValue, List.length_append, u32le_length, u64le_length]
    omega
  | text s => simp [depthV, encodeValue, u32le, u64le]
  | int i => simp [depthV, encodeValue, u32le, i32le]
  | bigint i => simp [depthV, encodeValue, u32le, i64le, u64le]
  | uuidV u => simp [depthV, encodeValue, u32le, u64le]
  | timestamp t => simp [depthV, encodeValue, u32le, i64le, u64le]
  | boolean b => simp [depthV, encodeValue, u32le]
  | double bits => simp [depthV, encodeValue, u32le, u64le]
  | blob bs => simp [depthV, encodeValue, u32le, u64le]
  | nullV => simp [depthV, encodeValue, u32le]

theorem depthList_le_enc (l : List CassandraValue) :
    depthList l ≤ (encodeValues l).length := by
  cases l with
  | nil => simp [depthList, encodeValues]
  | cons v vs =>
    have h1 := depthV_le_enc v
    have h2 := depthList_le_enc vs
    simp only [depthList, encodeValues, List.length_append]
    omega

theorem depthEntries_le_enc (m : List (ByteStr × CassandraValue)) :
    depthEntries m ≤ (encodeEntries m).length := by
  cases m with
  | nil => simp [depthEntries, encodeEntries]
  | cons kv rest =>
    obtain ⟨k, v⟩ := kv
    have h1 := depthV_le_enc v
    have h2 := depthEntries_le_enc rest
    simp only [depthEntries, encodeEntries, List.length_append, u64le_length]
    omega
end

/-- `bincode` round-trip for values: deserializing the serialization of any
well-formed value returns it. -/
theorem deserializeValue_serializeValue (v : CassandraValue)
    (hwf : wfValue v = true) : deserializeValue (serializeValue v) = some v := by
  have hd : depthV v < (encodeValue v).length + 1 :=
    Nat.lt_succ_of_le (depthV_le_enc v)
  have h := parseValue_encode ((encodeValue v).length + 1) v [] hwf hd
  rw [List.append_nil] at h
  simp [deserializeValue, serializeValue, h]

mutual
/-- Away from `Null`/`UUID`, `serialized_size` accounts for every encoded
byte except the 4-byte enum tags. -/
theorem ssize_tags_enc (v : CassandraValue) (h : noNullUuid v = true) :
    serialized_size v + 4 * tagCount v = (encodeValue v).length := by
  cases v with
  | mapV m =>
    have := ssize_tags_encEntries m (by simpa [noNullUuid] using h)
    simp only [serialized_size, tagCount, encodeValue, List.length_append,
      u32le_length, u64le_length]
    omega
  | listV l =>
    have := ssize_tags_encList l (by simpa [noNullUuid] using h)
    simp only [serialized_size, tagCount, encodeValue, List.length_append,
      u32le_length, u64le_length]
    omega
  | setV s =>
    have := ssize_tags_encList s (by simpa [noNullUuid] using h)
    simp only [serialized_size, tagCount, encodeValue, List.length_append,
      u32le_length, u64le_length]
    omega
  | text s => simp [serialized_size, tagCount, encodeValue, u32le, u64le]; omega
  | int i => simp [serialized_size, tagCount, encodeValue, u32le, i32le]
  | bigint i => simp [serialized_size, tagCount, encodeValue, u32le, i64le, u64le]
  | uuidV u => simp [noNullUuid] at h
  | timestamp t => simp [serialized_size, tagCount, encodeValue, u32le, i64le, u64le]
  | boolean b => simp [serialized_size, tagCount, encodeValue, u32le]
  | double bits => simp [serialized_size, tagCount, encodeValue, u32le, u64le]
  | blob bs => simp [serialized_size, tagCount, encodeValue, u32le, u64le]; omega
  | nullV => simp [noNullUuid] at h

theorem ssize_tags_encList (l : List CassandraValue)
    (h : noNullUuidList l = true) :
    sizeList l + 4 * tagCountList l = (encodeValues l).length := by
  cases l with
  | nil => simp [sizeList, tagCountList, encodeValues]
  | cons v vs =>
    simp only [noNullUuidList, Bool.and_eq_true] at h
    have h1 := ssize_tags_enc v h.1
    have h2 := ssize_tags_encList vs h.2
    simp only [sizeList, tagCountList, encodeValues, List.length_append]
    omega

theorem ssize_tags_encEntries (m : List (ByteStr × CassandraValue))
    (h : noNullUuidEntries m = true) :
    sizeEntries m + 4 * tagCountEntries m = (encodeEntries m).length := by
  cases m with
  | nil => simp [sizeEntries, tagCountEntries, encodeEntries]
  | cons kv rest =>
    obtain ⟨k, v⟩ := kv
    simp only [noNullUuidEntries, Bool.and_eq_true] at h
    have h1 := ssize_tags_enc v h.1
    have h2 := ssize_tags_encEntries rest h.2
    simp only [sizeEntries, tagCountEntries, encodeEntries, List.length_append,
      u64le_length]
    omega
end

theorem sum_cmpInsert (cmp : κ → κ → Ordering) (f : α → Nat) (k : κ) (v : α) :
    ∀ l : List (κ × α),
    listSum f (cmpInsert cmp k v l) +
      (match cmpLookup cmp k l with
       | some old => f old
       | none => 0) = f v + listSum f l := by
  intro l
  induction l with
  | nil => simp [cmpInsert, cmpLookup, listSum]
  | cons kv rest ih =>
    obtain ⟨k', v'⟩ := kv
    simp only [cmpInsert, cmpLookup]
    cases h : cmp k k' with
    | lt => simp [listSum]
    | eq => simp [listSum]; omega
    | gt =>
      simp only [listSum, List.map_cons, List.sum_cons] at ih ⊢
      omega

theorem cmpLookup_le_sum (cmp : κ → κ → Ordering) (f : α → Nat) (k : κ)
    {old : α} : ∀ {l : List (κ × α)},
    cmpLookup cmp k l = some old → f old ≤ listSum f l := by
  intro l
  induction l with
  | nil => intro h; simp [cmpLookup] at h
  | cons kv rest ih =>
    obtain ⟨k', v'⟩ := kv
    intro h
    simp only [cmpLookup] at h
    cases hc : cmp k k' <;> rw [hc] at h
    · simp at h
    · cases h
      simp [listSum]
    · have := ih h
      simp only [listSum, List.map_cons, List.sum_cons] at *
      omega

/-- A single `put` changes the stored partitions so that the global row-size
sum gains the new row and loses the replaced one. -/
theorem put_memSizeSum (m : Memtable) (row : Row) :
    memSizeSum (m.put row).partitions +
      (match cmpLookup pkCmp row.partition_key m.partitions with
       | some p =>
         match cmpLookup optCkCmp row.clustering_key p.rows with
         | some old => calculate_row_size old
         | none => 0
       | none => 0) =
      calculate_row_size row + memSizeSum m.partitions := by
  unfold Memtable.put
  cases hp : cmpLookup pkCmp row.partition_key m.partitions with
  | some p =>
    simp only [hp, Option.getD_some]
    have h1 := sum_cmpInsert pkCmp (fun q => rowsSizeSum q.rows)
      row.partition_key
      { p with rows := cmpInsert optCkCmp row.clustering_key row p.rows }
      m.partitions
    rw [hp] at h1
    have h2 := sum_cmpInsert optCkCmp calculate_row_size row.clustering_key
      row p.rows
    cases hr : cmpLookup optCkCmp row.clustering_key p.rows with
    | some old =>
      rw [hr] at h2
      simp only [memSizeSum, rowsSizeSum] at *
      omega
    | none =>
      rw [hr] at h2
      simp only [memSizeSum, rowsSizeSum] at *
      omega
  | none =>
    simp only [hp, Option.getD_none]
    have h1 := sum_cmpInsert pkCmp (fun q => rowsSizeSum q.rows)
      row.partition_key
      { Partition.newP with
        rows := cmpInsert optCkCmp row.clustering_key row Partition.newP.rows }
      m.partitions
    rw [hp] at h1
    simp only [Partition.newP, cmpInsert, memSizeSum, rowsSizeSum, listSum,
      List.map_cons, List.map_nil, List.sum_cons, List.sum_nil] at *
    omega

theorem modAdd_helper (M R D : Nat) (h : D = R + M) :
    (M + R) % 18446744073709551616 = D % 18446744073709551616 := by omega

theorem modSub_helper (M R O D : Nat) (h : D + O = R + M) :
    (M + (((R : Int) - (O : Int)) % 18446744073709551616).toNat) %
      18446744073709551616 = D % 18446744073709551616 := by omega

/-- `put` preserves the size invariant `size_bytes = Σ row sizes (mod 2^64)`. -/
theorem put_size_invariant (m : Memtable) (row : Row)
    (h : m.size_bytes = memSizeSum m.partitions % 2 ^ 64) :
    (m.put row).size_bytes = memSizeSum (m.put row).partitions % 2 ^ 64 := by
  have hsum := put_memSizeSum m row
  have hput : (m.put row).size_bytes =
      (match cmpLookup pkCmp row.partition_key m.partitions with
       | some p =>
         match cmpLookup optCkCmp row.clustering_key p.rows with
         | some existing =>
           (m.size_bytes +
             (((calculate_row_size row : Int) -
               (calculate_row_size existing : Int)) % 2 ^ 64).toNat) % 2 ^ 64
         | none => (m.size_bytes + calculate_row_size row) % 2 ^ 64
       | none => (m.size_bytes + calculate_row_size row) % 2 ^ 64) := by
    unfold Memtable.put
    cases hp : cmpLookup pkCmp row.partition_key m.partitions with
    | some p =>
      cases hr : cmpLookup optCkCmp row.clustering_key p.rows with
      | some old => simp [hp, hr]
      | none => simp [hp, hr]
    | none => simp [hp, Partition.newP, cmpLookup]
  cases hp : cmpLookup pkCmp row.partition_key m.partitions with
  | some p =>
    cases hr : cmpLookup optCkCmp row.clustering_key p.rows with
    | some old =>
      have hle : calculate_row_size old ≤ memSizeSum m.partitions := by
        have h1 := cmpLookup_le_sum optCkCmp calculate_row_size
          row.clustering_key hr
        have h2 := cmpLookup_le_sum pkCmp (fun q => rowsSizeSum q.rows)
          row.partition_key hp
        simp only [memSizeSum, rowsSizeSum] at *
        omega
      rw [hput]
      simp only [hp, hr] at hsum ⊢
      simp only [h]
      clear hput hp hr h hle
      generalize memSizeSum (m.put row).partitions = D at *
      generalize memSizeSum m.partitions = M at *
      generalize calculate_row_size row = R at *
      generalize calculate_row_size old = O at *
      norm_num at *
      exact modSub_helper M R O D hsum
    | none =>
      rw [hput]
      simp only [hp, hr] at hsum ⊢
      simp only [h]
      clear hput hp hr h
      generalize memSizeSum (m.put row).partitions = D at *
      generalize memSizeSum m.partitions = M at *
      generalize calculate_row_size row = R at *
      norm_num at *
      exact modAdd_helper M R D hsum
  | none =>
    rw [hput]
    simp only [hp] at hsum ⊢
    simp only [h]
    clear hput hp h
    generalize memSizeSum (m.put row).partitions = D at *
    generalize memSizeSum m.partitions = M at *
    generalize calculate_row_size row = R at *
    norm_num at *
    exact modAdd_helper M R D hsum

theorem ordBeq_lt_iff (a : Ordering) : (a == Ordering.lt) = true ↔ a = .lt := by
  cases a <;> decide

theorem ordBne_gt_iff (a : Ordering) : (a != Ordering.gt) = true ↔ a ≠ .gt := by
  cases a <;> decide

theorem pairwiseLtB_iff (cmp : κ → κ → Ordering) :
    ∀ l : List (κ × α), pairwiseLtB cmp l = true ↔
      List.Pairwise (fun a b => cmp a.1 b.1 = .lt) l := by
  intro l
  induction l with
  | nil => simp [pairwiseLtB]
  | cons a rest ih =>
    simp only [pairwiseLtB, Bool.and_eq_true, List.all_eq_true,
      List.pairwise_cons, ih]
    constructor
    · rintro ⟨h1, h2⟩
      exact ⟨fun b hb => (ordBeq_lt_iff _).mp (h1 b hb), h2⟩
    · rintro ⟨h1, h2⟩
      exact ⟨fun b hb => (ordBeq_lt_iff _).mpr (h1 b hb), h2⟩

theorem cmpLookup_mem (cmp : κ → κ → Ordering) (k : κ) :
    ∀ {l : List (κ × α)} {v : α}, cmpLookup cmp k l = some v →
      ∃ k', (k', v) ∈ l := by
  intro l
  induction l with
  | nil => intro v h; simp [cmpLookup] at h
  | cons kv rest ih =>
    obtain ⟨k', v'⟩ := kv
    intro v h
    simp only [cmpLookup] at h
    cases hc : cmp k k' <;> rw [hc] at h
    · simp at h
    · cases h
      exact ⟨k', by simp⟩
    · obtain ⟨k'', hk''⟩ := ih h
      exact ⟨k'', by simp [hk'']⟩

/-- C9: comparing two `CassandraValue`s of different kinds with the total
`cmp` always yields `Equal` (since `partial_cmp` returns `None` and `cmp`
maps `None` to `Equal`); consequently the ordering is not antisymmetric —
`Int(1)` and `Text("a")` are distinct yet compare `Equal` — and the ordered
maps conflate distinct mixed-kind keys: a row stored under partition key
`[Int(1)]` is returned by a `get` for `[Text("a")]`. -/
theorem C9_mixed_kind_cmp_eq :
    (∀ v w : CassandraValue, kindIdx v ≠ kindIdx w → valueCmp v w = .eq) ∧
    valueCmp (.int 1) (.text [97]) = .eq ∧
    (CassandraValue.int 1 ≠ CassandraValue.text [97]) ∧
    ((Memtable.newM.put ⟨⟨[.int 1]⟩, none, [], 0⟩).get ⟨[.text [97]]⟩ none =
      some ⟨⟨[.int 1]⟩, none, [], 0⟩) := by
  refine ⟨?_, rfl, by decide, rfl⟩
  intro v w h
  cases v <;> cases w <;> first
    | (exfalso; exact h rfl)
    | rfl

/-- C9 witness: the universally quantified part of the theorem applied at
the concrete mixed-kind pair. -/
theorem C9_mixed_kind_cmp_eq_witness :
    kindIdx (.int 1) ≠ kindIdx (.text [97]) ∧
      valueCmp (.int 1) (.text [97]) = .eq :=
  ⟨by decide, C9_mixed_kind_cmp_eq.1 (.int 1) (.text [97]) (by decide)⟩

/-- C5 counterexample: a partition holding two rows with clustering keys
`[BigInt 1]` and `[BigInt 2]` (both retrievable with `get`), on which
`range_scan` with both endpoints absent returns nothing — the absent end
endpoint is the minimal `None` key, not `+∞`, so the claimed "all rows of
the partition" result (2 rows) is refuted. -/
theorem C5_counterexample :
    (mkMemtable [⟨⟨[.int 1]⟩, some ⟨[.bigint 1]⟩, [], 0⟩,
        ⟨⟨[.int 1]⟩, some ⟨[.bigint 2]⟩, [], 0⟩]).range_scan
      ⟨[.int 1]⟩ none none = [] ∧
    (mkMemtable [⟨⟨[.int 1]⟩, some ⟨[.bigint 1]⟩, [], 0⟩,
        ⟨⟨[.int 1]⟩, some ⟨[.bigint 2]⟩, [], 0⟩]).get
      ⟨[.int 1]⟩ (some ⟨[.bigint 1]⟩) =
        some ⟨⟨[.int 1]⟩, some ⟨[.bigint 1]⟩, [], 0⟩ ∧
    (mkMemtable [⟨⟨[.int 1]⟩, some ⟨[.bigint 1]⟩, [], 0⟩,
        ⟨⟨[.int 1]⟩, some ⟨[.bigint 2]⟩, [], 0⟩]).get
      ⟨[.int 1]⟩ (some ⟨[.bigint 2]⟩) =
        some ⟨⟨[.int 1]⟩, some ⟨[.bigint 2]⟩, [], 0⟩ :=
  ⟨rfl, rfl, rfl⟩

/-- C5 (amended): on a well-formed memtable, `range_scan` returns exactly
the rows of the partition whose stored clustering key lies between the two
endpoints in the `Option<ClusteringKey>` ordering in which `None` is the
least key — so an absent start behaves as `-∞`, but an absent end restricts
the scan to the clustering-key-less row — and the result is in ascending
clustering-key order. -/
theorem C5_range_scan_amended (m : Memtable) (hwf : m.wf = true)
    (pk : PartitionKey) (s e : Option ClusteringKey) :
    (m.range_scan pk s e).Chain'
      (fun a b => optCkCmp a.clustering_key b.clustering_key = .lt) ∧
    ∀ part, cmpLookup pkCmp pk m.partitions = some part →
      ∀ row, row ∈ m.range_scan pk s e ↔
        ((row.clustering_key, row) ∈ part.rows ∧
          optCkCmp s row.clustering_key ≠ .gt ∧
          optCkCmp row.clustering_key e ≠ .gt) := by
  simp only [Memtable.wf, Bool.and_eq_true, List.all_eq_true] at hwf
  obtain ⟨hpw, hparts⟩ := hwf
  cases hl : cmpLookup pkCmp pk m.partitions with
  | none =>
    constructor
    · simp [Memtable.range_scan, hl]
    · intro part hpart
      exact absurd hpart (by simp)
  | some part =>
    obtain ⟨pkey, hmem⟩ := cmpLookup_mem pkCmp pk hl
    have hfacts := hparts (pkey, part) hmem
    simp only [Bool.and_eq_true, List.all_eq_true] at hfacts
    obtain ⟨hrows_pw, hconsist⟩ := hfacts
    have hkeys : ∀ kr ∈ part.rows, kr.2.partition_key = pkey ∧
        kr.2.clustering_key = kr.1 := by
      intro kr hkr
      have := hconsist kr hkr
      simp only [Bool.and_eq_true, decide_eq_true_eq] at this
      exact this
    have hpw_rows : List.Pairwise (fun a b => optCkCmp a.1 b.1 = .lt) part.rows :=
      (pairwiseLtB_iff optCkCmp part.rows).mp hrows_pw
    constructor
    · simp only [Memtable.range_scan, hl]
      have hsub : List.Sublist
          (part.rows.filter (fun kr =>
            (optCkCmp s kr.1 != .gt) && (optCkCmp kr.1 e != .gt))) part.rows :=
        List.filter_sublist part.rows
      have hpw_f := hpw_rows.sublist hsub
      have hpw_f2 : List.Pairwise
          (fun a b => optCkCmp a.2.clustering_key b.2.clustering_key = .lt)
          (part.rows.filter (fun kr =>
            (optCkCmp s kr.1 != .gt) && (optCkCmp kr.1 e != .gt))) := by
        refine hpw_f.imp_of_mem ?_
        intro a b ha hb hab
        have ha2 := (hkeys a (hsub.subset ha)).2
        have hb2 := (hkeys b (hsub.subset hb)).2
        rw [ha2, hb2]
        exact hab
      refine List.Pairwise.chain' (List.pairwise_map.mpr ?_)
      exact hpw_f2
    · intro part' hpart'
      injection hpart' with hpp
      subst hpp
      intro row
      simp only [Memtable.range_scan, hl, List.mem_map]
      constructor
      · rintro ⟨kr, hkr, rfl⟩
        rw [List.mem_filter] at hkr
        obtain ⟨hmem2, hpred⟩ := hkr
        have hck := (hkeys kr hmem2).2
        simp only [Bool.and_eq_true, ordBne_gt_iff] at hpred
        rw [hck]
        exact ⟨hmem2, hpred.1, hpred.2⟩
      · rintro ⟨hmem2, h1, h2⟩
        refine ⟨(row.clustering_key, row), ?_, rfl⟩
        rw [List.mem_filter]
        refine ⟨hmem2, ?_⟩
        simp only [Bool.and_eq_true, ordBne_gt_iff]
        exact ⟨h1, h2⟩

/-- C5 witness: the amended theorem applied to a concrete well-formed
memtable. -/
theorem C5_range_scan_amended_witness :
    (mkMemtable [⟨⟨[.int 1]⟩, some ⟨[.bigint 1]⟩, [], 0⟩]).wf = true ∧
    (((mkMemtable [⟨⟨[.int 1]⟩, some ⟨[.bigint 1]⟩, [], 0⟩]).range_scan
        ⟨[.int 1]⟩ none none).Chain'
      (fun a b => optCkCmp a.clustering_key b.clustering_key = .lt) ∧
    ∀ part, cmpLookup pkCmp ⟨[.int 1]⟩
        (mkMemtable [⟨⟨[.int 1]⟩, some ⟨[.bigint 1]⟩, [], 0⟩]).partitions =
          some part →
      ∀ row, row ∈ (mkMemtable [⟨⟨[.int 1]⟩, some ⟨[.bigint 1]⟩, [], 0⟩]).range_scan
          ⟨[.int 1]⟩ none none ↔
        ((row.clustering_key, row) ∈ part.rows ∧
          optCkCmp none row.clustering_key ≠ .gt ∧
          optCkCmp row.clustering_key none ≠ .gt)) :=
  ⟨by decide,
    C5_range_scan_amended (mkMemtable [⟨⟨[.int 1]⟩, some ⟨[.bigint 1]⟩, [], 0⟩])
      (by decide) ⟨[.int 1]⟩ none none⟩

/-- C8: after any sequence of `put`s starting from a fresh memtable,
`size_bytes` equals the sum of `calculate_row_size` (partition key +
clustering key + per-cell name length, value `serialized_size` and 16 bytes
of metadata) over all live rows, as a `u64` (mod `2^64`); and a single `put`
shifts the stored total by exactly (new row size − replaced row size), the
replaced size being 0 when the (partition, clustering) key is new. -/
theorem C8_size_bytes_accounting :
    (∀ rows : List Row,
      (mkMemtable rows).size_bytes =
        memSizeSum (mkMemtable rows).partitions % 2 ^ 64) ∧
    (∀ (m : Memtable) (row : Row),
      memSizeSum (m.put row).partitions +
        (match cmpLookup pkCmp row.partition_key m.partitions with
         | some p =>
           match cmpLookup optCkCmp row.clustering_key p.rows with
           | some old => calculate_row_size old
           | none => 0
         | none => 0) =
        calculate_row_size row + memSizeSum m.partitions) := by
  constructor
  · intro rows
    have main : ∀ init : Memtable,
        init.size_bytes = memSizeSum init.partitions % 2 ^ 64 →
        (rows.foldl Memtable.put init).size_bytes =
          memSizeSum (rows.foldl Memtable.put init).partitions % 2 ^ 64 := by
      induction rows with
      | nil => intro init h; exact h
      | cons r rs ih =>
        intro init h
        exact ih (init.put r) (put_size_invariant init r h)
    exact main Memtable.newM (by simp [Memtable.newM, memSizeSum, listSum])
  · intro m row
    exact put_memSizeSum m row

/-- C7 counterexample: `serialized_size` does not match the serialized byte
length for `Null` — `serialized_size(Null) = 1` while the encoding is the
4-byte enum tag alone (payload 0 bytes) — nor for `UUID` —
`serialized_size = 16` while the encoding is tag + 8-byte length prefix +
16 bytes = 28 (payload 24). -/
theorem C7_counterexample :
    serialized_size .nullV = 1 ∧
    (serializeValue .nullV).length = 4 ∧
    serialized_size .nullV ≠ (serializeValue .nullV).length ∧
    serialized_size .nullV ≠
      (serializeValue .nullV).length - 4 * tagCount .nullV ∧
    serialized_size (.uuidV 5) = 16 ∧
    (serializeValue (.uuidV 5)).length = 28 ∧
    serialized_size (.uuidV 5) ≠
      (serializeValue (.uuidV 5)).length - 4 * tagCount (.uuidV 5) := by
  decide

/-- C7 (amended): for every well-formed value the bincode round trip is
bit-exact (`deserialize(serialize(v)) = v`, doubles compared by bit
pattern); and for every value free of `Null` and `UUID` components,
`serialized_size v` equals the serialized length minus the 4-byte enum tags
(the framing); `Null` (1 vs 0) and `UUID` (16 vs 24) are the exceptions. -/
theorem C7_serialization_amended (v : CassandraValue) (hwf : wfValue v = true) :
    deserializeValue (serializeValue v) = some v ∧
    (noNullUuid v = true →
      serialized_size v + 4 * tagCount v = (serializeValue v).length) :=
  ⟨deserializeValue_serializeValue v hwf, fun h => ssize_tags_enc v h⟩

/-- C7 witness: the amended theorem applied at a concrete nested value. -/
theorem C7_serialization_amended_witness :
    wfValue (.listV [.int 1, .text [97]]) = true ∧
    (deserializeValue (serializeValue (.listV [.int 1, .text [97]])) =
        some (.listV [.int 1, .text [97]]) ∧
      (noNullUuid (.listV [.int 1, .text [97]]) = true →
        serialized_size (.listV [.int 1, .text [97]]) +
            4 * tagCount (.listV [.int 1, .text [97]]) =
          (serializeValue (.listV [.int 1, .text [97]])).length)) :=
  ⟨by decide, C7_serialization_amended (.listV [.int 1, .text [97]]) (by decide)⟩

theorem getD_replicate_false : ∀ (n i : Nat),
    (List.replicate n false).getD i false = false := by
  intro n
  induction n with
  | zero => intro i; simp [List.getD]
  | succ n ih =>
    intro i
    cases i with
    | zero => simp [List.replicate]
    | succ j =>
      simp only [List.replicate]
      simp only [List.getD] at ih ⊢
      exact ih j

/-- A fresh filter reports every key absent: all bits are clear. -/
theorem might_contain_newB (e f : Nat) (k : PartitionKey) :
    (BloomFilter.newB e f).might_contain k = false := by
  have h0 : (0 : Nat) ∈ List.range bloomNumHashes := by
    simp [bloomNumHashes]
  refine List.all_eq_false.mpr ⟨0, h0, ?_⟩
  simp [BloomFilter.newB, getD_replicate_false]

set_option maxRecDepth 4000 in
/-- C3 counterexample: a filter built with the source's parameters and one
key added reports that key present, but serializing and deserializing it
yields a filter that reports the same key absent — the bit array is not
serialized. -/
theorem C3_counterexample :
    ((BloomFilter.newB 1 4576918229304087675).add
        ⟨[.int 42]⟩).might_contain ⟨[.int 42]⟩ = true ∧
    (bloomDeserialize (bloomSerialize
        ((BloomFilter.newB 1 4576918229304087675).add
          ⟨[.int 42]⟩))).might_contain ⟨[.int 42]⟩ = false := by
  constructor
  · decide
  · exact might_contain_newB _ _ _

/-- C3 (amended): serialization keeps only `expected_items` and
`false_positive_rate`; deserialization rebuilds a fresh filter with those
parameters, whose `might_contain` is `false` for every partition key — so
the round trip loses every key added before serialization. -/
theorem C3_bloom_serialization_amended (b : BloomFilter) (k : PartitionKey) :
    bloomDeserialize (bloomSerialize b) =
      BloomFilter.newB b.expected_items b.false_positive_rate ∧
    (bloomDeserialize (bloomSerialize b)).might_contain k = false :=
  ⟨rfl, might_contain_newB _ _ _⟩

/-! ## Comparator reflexivity and antisymmetric swap -/

theorem cmpSwapLin {α : Type} [LinearOrder α] (a b : α) :
    compare b a = (compare a b).swap := by
  rcases lt_trichotomy a b with h | h | h
  · rw [compare_lt_iff_lt.mpr h, compare_gt_iff_gt.mpr h]; rfl
  · rw [h, compare_eq_iff_eq.mpr rfl]; rfl
  · rw [compare_gt_iff_gt.mpr h, compare_lt_iff_lt.mpr h]; rfl

theorem cmpReflLin {α : Type} [LinearOrder α] (a : α) : compare a a = .eq :=
  compare_eq_iff_eq.mpr rfl

theorem bytesCmp_swap : ∀ a b : ByteStr, bytesCmp b a = (bytesCmp a b).swap := by
  intro a
  induction a with
  | nil => intro b; cases b <;> rfl
  | cons x xs ih =>
    intro b
    cases b with
    | nil => rfl
    | cons y ys =>
      simp only [bytesCmp]
      rw [cmpSwapLin x y]
      cases h : compare x y with
      | lt => rfl
      | eq => simpa [Ordering.swap] using ih ys
      | gt => rfl

theorem bytesCmp_refl : ∀ a : ByteStr, bytesCmp a a = .eq := by
  intro a
  induction a with
  | nil => rfl
  | cons x xs ih =>
    simp only [bytesCmp, cmpReflLin]
    exact ih

theorem boolCmp_swap (a b : Bool) : boolCmp b a = (boolCmp a b).swap := by
  cases a <;> cases b <;> rfl

theorem boolCmp_refl (a : Bool) : boolCmp a a = .eq := by
  cases a <;> rfl

theorem f64CmpO_swap (a b : Nat) :
    f64CmpO b a = (f64CmpO a b).map Ordering.swap := by
  unfold f64CmpO
  rw [Bool.or_comm (f64IsNaN b) (f64IsNaN a)]
  cases hn : (f64IsNaN a || f64IsNaN b) with
  | true => simp
  | false =>
    simp only [Bool.false_eq_true, if_false]
    split_ifs <;>
      simp_all [Option.map, Ordering.swap_swap] <;>
      first
        | rfl
        | omega
        | exact cmpSwapLin _ _

theorem f64CmpO_refl (a : Nat) :
    f64CmpO a a = none ∨ f64CmpO a a = some .eq := by
  unfold f64CmpO
  split_ifs <;> simp_all [cmpReflLin]

mutual
theorem valueCmpO_swap : ∀ a b : CassandraValue,
    valueCmpO b a = (valueCmpO a b).map Ordering.swap
  | a, b => by
    cases a <;> cases b <;>
      first
        | rfl
        | exact f64CmpO_swap _ _
        | (simp only [valueCmpO, Option.map]; rw [cmpSwapLin])
        | (simp only [valueCmpO, Option.map]; rw [bytesCmp_swap])
        | (simp only [valueCmpO, Option.map]; rw [boolCmp_swap])
        | exact valueListCmpO_swap _ _

theorem valueListCmpO_swap : ∀ a b : List CassandraValue,
    valueListCmpO b a = (valueListCmpO a b).map Ordering.swap
  | a, b => by
    cases a with
    | nil => cases b <;> rfl
    | cons x xs =>
      cases b with
      | nil => rfl
      | cons y ys =>
        simp only [valueListCmpO]
        rw [valueCmpO_swap x y]
        cases h : valueCmpO x y with
        | none => rfl
        | some o =>
          cases o with
          | lt => rfl
          | eq => exact valueListCmpO_swap xs ys
          | gt => rfl
end

mutual
theorem valueCmpO_refl (a : CassandraValue) :
    valueCmpO a a = none ∨ valueCmpO a a = some .eq := by
  cases a with
  | double bits => exact f64CmpO_refl bits
  | text s => right; simp [valueCmpO, bytesCmp_refl]
  | blob s => right; simp [valueCmpO, bytesCmp_refl]
  | boolean b => right; simp [valueCmpO, boolCmp_refl]
  | int i => right; simp [valueCmpO, cmpReflLin]
  | bigint i => right; simp [valueCmpO, cmpReflLin]
  | uuidV u => right; simp [valueCmpO, cmpReflLin]
  | timestamp t => right; simp [valueCmpO, cmpReflLin]
  | nullV => right; rfl
  | mapV m => right; rfl
  | listV l => exact valueListCmpO_refl l
  | setV s => exact valueListCmpO_refl s

theorem valueListCmpO_refl (l : List CassandraValue) :
    valueListCmpO l l = none ∨ valueListCmpO l l = some .eq := by
  cases l with
  | nil => right; rfl
  | cons x xs =>
    simp only [valueListCmpO]
    rcases valueCmpO_refl x with h | h
    · rw [h]; left; rfl
    · rw [h]; exact valueListCmpO_refl xs
end

theorem valueCmp_swap (a b : CassandraValue) :
    valueCmp b a = (valueCmp a b).swap := by
  unfold valueCmp
  rw [valueCmpO_swap]
  cases valueCmpO a b with
  | none => rfl
  | some o => cases o <;> rfl

theorem valueCmp_refl (a : CassandraValue) : valueCmp a a = .eq := by
  unfold valueCmp
  rcases valueCmpO_refl a with h | h <;> rw [h] <;> rfl

theorem keyListCmp_swap (f : α → α → Ordering)
    (hsw : ∀ x y, f y x = (f x y).swap) :
    ∀ a b : List α, keyListCmp f b a = (keyListCmp f a b).swap := by
  intro a
  induction a with
  | nil => intro b; cases b <;> rfl
  | cons x xs ih =>
    intro b
    cases b with
    | nil => rfl
    | cons y ys =>
      simp only [keyListCmp]
      rw [hsw x y]
      cases h : f x y with
      | lt => rfl
      | eq => exact ih ys
      | gt => rfl

theorem keyListCmp_refl (f : α → α → Ordering) (hr : ∀ x, f x x = .eq) :
    ∀ a : List α, keyListCmp f a a = .eq := by
  intro a
  induction a with
  | nil => rfl
  | cons x xs ih =>
    simp only [keyListCmp, hr x]
    exact ih

theorem pkCmp_swap (a b : PartitionKey) : pkCmp b a = (pkCmp a b).swap :=
  keyListCmp_swap valueCmp valueCmp_swap a.components b.components

theorem pkCmp_refl (a : PartitionKey) : pkCmp a a = .eq :=
  keyListCmp_refl valueCmp valueCmp_refl a.components

theorem ckCmp_swap (a b : ClusteringKey) : ckCmp b a = (ckCmp a b).swap :=
  keyListCmp_swap valueCmp valueCmp_swap a.components b.components

theorem ckCmp_refl (a : ClusteringKey) : ckCmp a a = .eq :=
  keyListCmp_refl valueCmp valueCmp_refl a.components

theorem optCkCmp_swap (a b : Option ClusteringKey) :
    optCkCmp b a = (optCkCmp a b).swap := by
  cases a <;> cases b <;> first | rfl | exact ckCmp_swap _ _

theorem optCkCmp_refl (a : Option ClusteringKey) : optCkCmp a a = .eq := by
  cases a with
  | none => rfl
  | some ck => exact ckCmp_refl ck

theorem insertSorted_append (cmp : α → α → Ordering) (x : α) :
    ∀ l : List α, (∀ y ∈ l, cmp x y ≠ .lt) →
      insertSorted cmp x l = l ++ [x] := by
  intro l
  induction l with
  | nil => intro _; rfl
  | cons y rest ih =>
    intro h
    simp only [insertSorted]
    cases hc : cmp x y with
    | lt => exact absurd hc (h y (by simp))
    | eq => simp [ih (fun z hz => h z (by simp [hz]))]
    | gt => simp [ih (fun z hz => h z (by simp [hz]))]

theorem foldl_insertSorted (cmp : α → α → Ordering)
    (hsw : ∀ a b, cmp b a = (cmp a b).swap) :
    ∀ (l acc : List α), (∀ y ∈ acc, ∀ x ∈ l, cmp y x = .lt) →
      l.Pairwise (fun a b => cmp a b = .lt) →
      l.foldl (fun acc x => insertSorted cmp x acc) acc = acc ++ l := by
  intro l
  induction l with
  | nil => intro acc _ _; simp
  | cons x xs ih =>
    intro acc hacc hpw
    simp only [List.foldl_cons]
    have hins : insertSorted cmp x acc = acc ++ [x] := by
      refine insertSorted_append cmp x acc (fun y hy => ?_)
      rw [hsw y x, hacc y hy x (by simp)]
      decide
    rw [hins]
    rw [List.pairwise_cons] at hpw
    rw [ih (acc ++ [x]) ?_ hpw.2]
    · simp
    · intro y hy x' hx'
      rcases List.mem_append.mp hy with hy | hy
      · exact hacc y hy x' (by simp [hx'])
      · simp only [List.mem_singleton] at hy
        subst hy
        exact hpw.1 x' hx'

/-- Sorting an already strictly sorted list is the identity. -/
theorem sortBy_sorted_id (cmp : α → α → Ordering)
    (hsw : ∀ a b, cmp b a = (cmp a b).swap) (l : List α)
    (hpw : l.Pairwise (fun a b => cmp a b = .lt)) : sortBy cmp l = l := by
  unfold sortBy
  rw [foldl_insertSorted cmp hsw l [] (by simp) hpw]
  simp

theorem cmpInsert_append (cmp : κ → κ → Ordering) (k : κ) (v : α) :
    ∀ l : List (κ × α), (∀ kv ∈ l, cmp k kv.1 = .gt) →
      cmpInsert cmp k v l = l ++ [(k, v)] := by
  intro l
  induction l with
  | nil => intro _; rfl
  | cons kv rest ih =>
    obtain ⟨k', v'⟩ := kv
    intro h
    have hk : cmp k k' = .gt := h (k', v') (by simp)
    simp only [cmpInsert, hk]
    simp [ih (fun z hz => h z (by simp [hz]))]

/-- Rebuilding a map by inserting strictly ascending keys reproduces the
association list. -/
theorem foldl_cmpInsert_rebuild (cmp : κ → κ → Ordering)
    (hsw : ∀ a b, cmp b a = (cmp a b).swap) :
    ∀ (rows acc : List (κ × α)),
      (∀ kv ∈ acc, ∀ kv' ∈ rows, cmp kv.1 kv'.1 = .lt) →
      rows.Pairwise (fun a b => cmp a.1 b.1 = .lt) →
      rows.foldl (fun acc kv => cmpInsert cmp kv.1 kv.2 acc) acc = acc ++ rows := by
  intro rows
  induction rows with
  | nil => intro acc _ _; simp
  | cons kv rest ih =>
    intro acc hacc hpw
    simp only [List.foldl_cons]
    have hins : cmpInsert cmp kv.1 kv.2 acc = acc ++ [kv] := by
      refine cmpInsert_append cmp kv.1 kv.2 acc (fun z hz => ?_)
      rw [hsw z.1 kv.1, hacc z hz kv (by simp)]
      decide
    rw [hins]
    rw [List.pairwise_cons] at hpw
    rw [ih (acc ++ [kv]) ?_ hpw.2]
    · simp
    · intro z hz kv' hkv'
      rcases List.mem_append.mp hz with hz | hz
      · exact hacc z hz kv' (by simp [hkv'])
      · simp only [List.mem_singleton] at hz
        subst hz
        exact hpw.1 kv' hkv'

/-- On a pairwise-sorted association list, the search finds the entry
stored under the queried key itself. -/
theorem cmpLookup_pairwise_self (cmp : κ → κ → Ordering)
    (hsw : ∀ a b, cmp b a = (cmp a b).swap) {k : κ} (hrefl : cmp k k = .eq) :
    ∀ {l : List (κ × α)} {v : α},
      l.Pairwise (fun a b => cmp a.1 b.1 = .lt) → (k, v) ∈ l →
      cmpLookup cmp k l = some v := by
  intro l
  induction l with
  | nil => intro v _ hm; cases hm
  | cons kv rest ih =>
    intro v hpw hm
    rw [List.pairwise_cons] at hpw
    rcases List.mem_cons.mp hm with heq | hm2
    · rw [← heq]
      simp [cmpLookup, hrefl]
    · have hlt : cmp kv.1 k = .lt := hpw.1 (k, v) hm2
      have hgt : cmp k kv.1 = .gt := by
        rw [hsw kv.1 k, hlt]
        rfl
      obtain ⟨k', v'⟩ := kv
      simp only [cmpLookup]
      simp only at hgt
      rw [hgt]
      exact ih hpw.2 hm2

theorem pOptU32_enc (t : Option Nat)
    (ht : match t with | none => True | some n => n < 2 ^ 32)
    (rest : ByteStr) : pOptU32 (encodeOptU32 t ++ rest) = some (t, rest) := by
  cases t with
  | none => rfl
  | some n =>
    simp only [encodeOptU32, List.cons_append, pOptU32, pU32_u32le]
    rw [Nat.mod_eq_of_lt ht]

theorem valuesParseH (f : Nat) (l : List CassandraValue)
    (hwf : wfValues l = true) (hd : depthList l < f) :
    ∀ v ∈ l, ∀ r, parseValue f (encodeValue v ++ r) = some (v, r) := by
  intro v hv r
  exact parseValue_encode f v r (wfValues_mem hwf hv)
    (lt_of_le_of_lt (depthList_mem hv) hd)

theorem pPK_enc (f : Nat) (pk : PartitionKey) (rest : ByteStr)
    (hwf : wfValues pk.components = true)
    (hlen : pk.components.length < 2 ^ 64)
    (hd : depthList pk.components < f) :
    pPK f (encodePK pk ++ rest) = some (pk, rest) := by
  simp only [encodePK, List.append_assoc, pPK, pU64_u64le, Nat.mod_eq_of_lt hlen]
  simp only [parseCount_encodeValues f pk.components rest (valuesParseH f _ hwf hd)]

theorem pCK_enc (f : Nat) (ck : ClusteringKey) (rest : ByteStr)
    (hwf : wfValues ck.components = true)
    (hlen : ck.components.length < 2 ^ 64)
    (hd : depthList ck.components < f) :
    pCK f (encodeCK ck ++ rest) = some (ck, rest) := by
  simp only [encodeCK, List.append_assoc, pCK, pU64_u64le, Nat.mod_eq_of_lt hlen]
  simp only [parseCount_encodeValues f ck.components rest (valuesParseH f _ hwf hd)]

theorem pOptCK_enc (f : Nat) (ck : Option ClusteringKey) (rest : ByteStr)
    (hwf : (match ck with
            | none => true
            | some c => wfValues c.components &&
                decide (c.components.length < 2 ^ 64)) = true)
    (hd : depthOptCK ck < f) :
    pOptCK f (encodeOptCK ck ++ rest) = some (ck, rest) := by
  cases ck with
  | none => rfl
  | some c =>
    simp only [Bool.and_eq_true, decide_eq_true_eq] at hwf
    simp only [depthOptCK] at hd
    simp only [encodeOptCK, List.cons_append, pOptCK]
    rw [pCK_enc f c rest hwf.1 hwf.2 hd]

theorem pCell_enc (f : Nat) (c : Cell) (rest : ByteStr)
    (hwf : wfCell c = true) (hd : depthV c.value < f) :
    pCell f (encodeCell c ++ rest) = some (c, rest) := by
  simp only [wfCell, Bool.and_eq_true, decide_eq_true_eq] at hwf
  obtain ⟨⟨⟨hv, ht1⟩, ht2⟩, httl⟩ := hwf
  have httl2 : (match c.ttl with | none => True | some n => n < 2 ^ 32) := by
    cases h : c.ttl with
    | none => trivial
    | some n =>
      rw [h] at httl
      simpa using httl
  have e1 : ∀ rr, parseValue f (encodeValue c.value ++ rr) = some (c.value, rr) :=
    fun rr => parseValue_encode f c.value rr hv hd
  have e2 : ∀ rr, pI64 (i64le c.timestamp ++ rr) = some (c.timestamp, rr) :=
    fun rr => pI64_i64le c.timestamp rr ht1 ht2
  have e3 : ∀ rr, pOptU32 (encodeOptU32 c.ttl ++ rr) = some (c.ttl, rr) :=
    fun rr => pOptU32_enc c.ttl httl2 rr
  have e4 : ∀ rr, pBool (cond c.is_deleted 1 0 :: rr) = some (c.is_deleted, rr) :=
    fun rr => pBool_encode c.is_deleted rr
  simp only [encodeCell, List.append_assoc, List.singleton_append, pCell,
    e1, e2, e3, e4]

theorem parseCount_cellEntries (f : Nat) (m : List (ByteStr × Cell))
    (rest : ByteStr) (hwf : wfCells m = true) (hd : depthCells m < f) :
    parseCount (pCellEntry f) m.length (encodeCellEntries m ++ rest) =
      some (m, rest) := by
  induction m with
  | nil => simp [encodeCellEntries, parseCount]
  | cons kc rest2 ih =>
    obtain ⟨k, c⟩ := kc
    simp only [wfCells, Bool.and_eq_true, decide_eq_true_eq] at hwf
    simp only [depthCells] at hd
    simp only [encodeCellEntries, List.append_assoc, List.length_cons,
      parseCount, pCellEntry, pU64_u64le, Nat.mod_eq_of_lt hwf.1.1,
      pBytes_append,
      pCell_enc f c _ hwf.1.2 (lt_of_le_of_lt (Nat.le_max_left _ _) hd),
      ih hwf.2 (lt_of_le_of_lt (Nat.le_max_right _ _) hd)]

theorem pRow_enc (f : Nat) (r : Row) (rest : ByteStr)
    (hwf : wfRow r = true) (hd : depthRow r < f) :
    pRow f (encodeRow r ++ rest) = some (r, rest) := by
  simp only [wfRow, Bool.and_eq_true, decide_eq_true_eq] at hwf
  obtain ⟨⟨⟨⟨⟨⟨hpk, hpkl⟩, hck⟩, hcl⟩, hcells⟩, ht1⟩, ht2⟩ := hwf
  simp only [depthRow] at hd
  have e1 : ∀ rr, pPK f (encodePK r.partition_key ++ rr) =
      some (r.partition_key, rr) :=
    fun rr => pPK_enc f r.partition_key rr hpk hpkl
      (lt_of_le_of_lt (Nat.le_max_left _ _) hd)
  have e2 : ∀ rr, pOptCK f (encodeOptCK r.clustering_key ++ rr) =
      some (r.clustering_key, rr) :=
    fun rr => pOptCK_enc f r.clustering_key rr hck
      (lt_of_le_of_lt (le_trans (Nat.le_max_left _ _) (Nat.le_max_right _ _)) hd)
  have e3 : ∀ rr, parseCount (pCellEntry f) r.cells.length
      (encodeCellEntries r.cells ++ rr) = some (r.cells, rr) :=
    fun rr => parseCount_cellEntries f r.cells rr hcells
      (lt_of_le_of_lt (le_trans (Nat.le_max_right _ _) (Nat.le_max_right _ _)) hd)
  have e4 : ∀ rr, pI64 (i64le r.timestamp ++ rr) = some (r.timestamp, rr) :=
    fun rr => pI64_i64le r.timestamp rr ht1 ht2
  simp only [encodeRow, encodeCellMap, List.append_assoc, pRow, e1, e2,
    pU64_u64le, Nat.mod_eq_of_lt hcl, e3, e4]

theorem depthCells_le_enc : ∀ m : List (ByteStr × Cell),
    depthCells m ≤ (encodeCellEntries m).length := by
  intro m
  induction m with
  | nil => simp [depthCells, encodeCellEntries]
  | cons kc rest ih =>
    obtain ⟨k, c⟩ := kc
    have h1 := depthV_le_enc c.value
    simp only [depthCells, encodeCellEntries, encodeCell, List.length_append,
      u64le_length]
    omega

theorem depthRow_le_enc (r : Row) : depthRow r ≤ (encodeRow r).length := by
  have h1 := depthList_le_enc r.partition_key.components
  have h3 := depthCells_le_enc r.cells
  simp only [depthRow, encodeRow, encodePK, encodeCellMap, List.length_append,
    u64le_length, i64le_length]
  cases hck : r.clustering_key with
  | none => simp only [depthOptCK]; omega
  | some c =>
    have h2 := depthList_le_enc c.components
    simp only [depthOptCK, encodeOptCK, encodeCK, List.length_cons,
      List.length_append, u64le_length]
    omega

/-- Decoding an encoded row from its exact slice returns the row. -/
theorem decodeRow_encodeRow (r : Row) (hwf : wfRow r = true) :
    decodeRow (encodeRow r) = some r := by
  have hd : depthRow r < (encodeRow r).length + 1 :=
    Nat.lt_succ_of_le (depthRow_le_enc r)
  have h := pRow_enc ((encodeRow r).length + 1) r [] hwf hd
  rw [List.append_nil] at h
  simp [decodeRow, h]

theorem drop_append_ge (a b : ByteStr) (n : Nat) (h : a.length ≤ n) :
    (a ++ b).drop n = b.drop (n - a.length) := by
  have hn : a.length + (n - a.length) = n := by omega
  have h2 := @List.drop_append _ a b (n - a.length)
  rw [hn] at h2
  exact h2

theorem setBits_length (idxs : List Nat) :
    ∀ bits : List Bool, (setBits bits idxs).length = bits.length := by
  induction idxs with
  | nil => intro bits; rfl
  | cons i rest ih =>
    intro bits
    simp only [setBits, ih, List.length_set]

theorem getD_set_true (bits : List Bool) (i j : Nat)
    (h : bits.getD j false = true) : (bits.set i true).getD j false = true := by
  by_cases hij : i = j
  · subst hij
    by_cases hlen : i < bits.length
    · simp [List.getD, List.getElem?_set, hlen]
    · rw [List.set_eq_of_length_le (by omega)]
      exact h
  · simp only [List.getD, List.get?_eq_getElem?] at h ⊢
    rw [List.getElem?_set]
    simp [hij, h]

theorem getD_setBits_mono (idxs : List Nat) :
    ∀ (bits : List Bool) (j : Nat), bits.getD j false = true →
      (setBits bits idxs).getD j false = true := by
  induction idxs with
  | nil => intro bits j h; exact h
  | cons i rest ih =>
    intro bits j h
    simp only [setBits]
    exact ih _ j (getD_set_true bits i j h)

theorem getD_setBits_self (idxs : List Nat) :
    ∀ (bits : List Bool) (i : Nat), i ∈ idxs → i < bits.length →
      (setBits bits idxs).getD i false = true := by
  induction idxs with
  | nil => intro bits i h; cases h
  | cons j rest ih =>
    intro bits i hmem hlen
    rcases List.mem_cons.mp hmem with rfl | hmem2
    · simp only [setBits]
      refine getD_setBits_mono rest _ i ?_
      simp [List.getD, List.getElem?_set, hlen]
    · simp only [setBits]
      exact ih _ i hmem2 (by simpa using hlen)

theorem add_wfB (b : BloomFilter) (k : PartitionKey) (h : b.wfB = true) :
    (b.add k).wfB = true := by
  simp only [BloomFilter.wfB, BloomFilter.add, Bool.and_eq_true,
    decide_eq_true_eq, setBits_length] at h ⊢
  exact h

theorem might_contain_add_self (b : BloomFilter) (k : PartitionKey)
    (h : b.wfB = true) : (b.add k).might_contain k = true := by
  simp only [BloomFilter.wfB, Bool.and_eq_true, decide_eq_true_eq] at h
  simp only [BloomFilter.might_contain, BloomFilter.add, List.all_eq_true]
  intro i hi
  refine getD_setBits_self _ _ _ ?_ ?_
  · exact List.mem_map.mpr ⟨i, hi, rfl⟩
  · rw [h.1.1]
    exact Nat.mod_lt _ h.1.2

theorem might_contain_add_mono (b : BloomFilter) (k k' : PartitionKey)
    (h : b.might_contain k = true) : (b.add k').might_contain k = true := by
  simp only [BloomFilter.might_contain, BloomFilter.add, List.all_eq_true] at h ⊢
  intro i hi
  exact getD_setBits_mono _ _ _ (h i hi)

theorem might_contain_foldl_mono (l : List (PartitionKey × Partition)) :
    ∀ (b : BloomFilter) (k : PartitionKey), b.might_contain k = true →
      (l.foldl (fun b q => b.add q.1) b).might_contain k = true := by
  induction l with
  | nil => intro b k h; exact h
  | cons q rest ih =>
    intro b k h
    simp only [List.foldl_cons]
    exact ih _ k (might_contain_add_mono b k q.1 h)

theorem might_contain_foldl_add (l : List (PartitionKey × Partition)) :
    ∀ (b : BloomFilter), b.wfB = true → ∀ pp ∈ l,
      (l.foldl (fun b q => b.add q.1) b).might_contain pp.1 = true := by
  induction l with
  | nil => intro b _ pp h; cases h
  | cons q rest ih =>
    intro b hwf pp hmem
    rcases List.mem_cons.mp hmem with rfl | hmem2
    · simp only [List.foldl_cons]
      exact might_contain_foldl_mono rest _ _
        (might_contain_add_self b pp.1 hwf)
    · simp only [List.foldl_cons]
      exact ih _ (add_wfB b q.1 hwf) pp hmem2

theorem newB_wfB (e f : Nat) : (BloomFilter.newB e f).wfB = true := by
  simp only [BloomFilter.newB, BloomFilter.wfB, Bool.and_eq_true,
    decide_eq_true_eq, List.length_replicate, bloomNumBits]
  refine ⟨⟨by trivial, ?_⟩, by trivial⟩
  have := Nat.le_max_left 1 e
  omega

theorem blockAt_congr (bs1 bs2 : ByteStr) (o1 o2 : Nat)
    (h : bs1.drop o1 = bs2.drop o2) : blockAt bs1 o1 = blockAt bs2 o2 := by
  unfold blockAt
  rw [h]

theorem buildBlocks_keys (c : CompressionType) :
    ∀ (parts : List (PartitionKey × Partition)) (off : Nat),
      ((buildBlocks c off parts).1).map Prod.fst = parts.map Prod.fst := by
  intro parts
  induction parts with
  | nil => intro off; rfl
  | cons pp rest ih =>
    intro off
    obtain ⟨pk, part⟩ := pp
    simp only [buildBlocks, List.map_cons, ih]

/-- Compression round trip; ZSTD only below the source's 1 MiB
decompression cap. -/
theorem decompress_compress (c : CompressionType) (d : ByteStr)
    (h1 : d.length < 2 ^ 32)
    (h2 : c = CompressionType.zstd → d.length ≤ 1024 * 1024) :
    decompress c (compress c d) = some d := by
  cases c with
  | noneC => rfl
  | snappy => rfl
  | lz4 =>
    simp only [compress, decompress, pU32_u32le, Nat.mod_eq_of_lt h1]
    simp
  | zstd =>
    have := h2 rfl
    simp only [compress, decompress]
    have hnot : ¬ d.length > 1024 * 1024 := by omega
    simp [hnot]

/-- The static-column map round-trips through its full-slice decoder. -/
theorem decodeStaticMap_encodeCellMap (sc : List (ByteStr × Cell))
    (hwf : wfCells sc = true) (hlen : sc.length < 2 ^ 64) :
    decodeStaticMap (encodeCellMap sc) = some sc := by
  have hd : depthCells sc < (encodeCellMap sc).length + 1 := by
    have h1 := depthCells_le_enc sc
    simp only [encodeCellMap, List.length_append]
    omega
  have hcnt := parseCount_cellEntries ((encodeCellMap sc).length + 1) sc []
    hwf hd
  rw [List.append_nil] at hcnt
  simp only [decodeStaticMap, encodeCellMap, pU64_u64le,
    Nat.mod_eq_of_lt hlen]
  simp only [encodeCellMap, List.length_append] at hcnt
  simp [hcnt]

/-- The sort comparator of `serialize_partition` is exactly the ordered
map's comparator applied to the rows' own clustering keys. -/
theorem rowCmpSrc_eq_optCkCmp (a b : Row) :
    rowCmpSrc a b = optCkCmp a.clustering_key b.clustering_key := by
  unfold rowCmpSrc optCkCmp
  cases a.clustering_key <;> cases b.clustering_key <;> rfl

theorem rowCmpSrc_swap (a b : Row) : rowCmpSrc b a = (rowCmpSrc a b).swap := by
  rw [rowCmpSrc_eq_optCkCmp, rowCmpSrc_eq_optCkCmp, optCkCmp_swap]

/-- When every row is stored under its own clustering key, folding over the
rows is folding over the map entries. -/
theorem foldl_map_rows (l : List (Option ClusteringKey × Row)) :
    ∀ acc : List (Option ClusteringKey × Row),
      (∀ kr ∈ l, kr.2.clustering_key = kr.1) →
      (l.map (fun kr => kr.2)).foldl
        (fun acc r => cmpInsert optCkCmp r.clustering_key r acc) acc =
      l.foldl (fun acc kv => cmpInsert optCkCmp kv.1 kv.2 acc) acc := by
  induction l with
  | nil => intro acc _; rfl
  | cons kr rest ih =>
    intro acc h
    simp only [List.map_cons, List.foldl_cons, h kr (by simp)]
    exact ih _ (fun q hq => h q (by simp [hq]))

theorem forall2_mem_left {α β : Type} {R : α → β → Prop} :
    ∀ {l1 : List α} {l2 : List β}, List.Forall₂ R l1 l2 →
      ∀ a ∈ l1, ∃ b ∈ l2, R a b := by
  intro l1 l2 h
  induction h with
  | nil => intro a ha; cases ha
  | cons hr _ ih =>
    intro a ha
    rcases List.mem_cons.mp ha with rfl | ha2
    · exact ⟨_, by simp, hr⟩
    · rcases ih a ha2 with ⟨b, hb, hrb⟩
      exact ⟨b, by simp [hb], hrb⟩

theorem encodeHeader_length (t : Nat) (a b : Int) (p q r s : Nat) :
    (encodeHeader t a b p q r s).length = headerSize := by
  simp [encodeHeader, headerSize, u32le_length, i64le_length, u64le_length]

theorem decompress_zstd_over (data : ByteStr)
    (h : data.length > 1024 * 1024) :
    decompress CompressionType.zstd data = none := by
  unfold decompress
  rw [if_pos h]

theorem deserialize_partition_none (data : ByteStr) (c : CompressionType)
    (h : decompress c data = none) : deserialize_partition data c = none := by
  unfold deserialize_partition
  rw [h]

theorem insertSorted_mem {α : Type} (cmp : α → α → Ordering) (x : α) :
    ∀ (l : List α) (a : α), a ∈ insertSorted cmp x l ↔ a = x ∨ a ∈ l := by
  intro l
  induction l with
  | nil => intro a; simp [insertSorted]
  | cons y rest ih =>
    intro a
    unfold insertSorted
    cases cmp x y with
    | lt => simp
    | eq => simp [ih, or_comm, or_left_comm]
    | gt => simp [ih, or_comm, or_left_comm]

theorem sortBy_mem {α : Type} (cmp : α → α → Ordering) :
    ∀ (l acc : List α) (a : α),
      a ∈ l.foldl (fun acc x => insertSorted cmp x acc) acc ↔
        a ∈ acc ∨ a ∈ l := by
  intro l
  induction l with
  | nil => intro acc a; simp
  | cons x rest ih =>
    intro acc a
    simp only [List.foldl_cons, ih, insertSorted_mem, List.mem_cons]
    tauto

/-- Membership is invariant under the modelled `sort_by`. -/
theorem mem_sortBy {α : Type} (cmp : α → α → Ordering) (l : List α) (a : α) :
    a ∈ sortBy cmp l ↔ a ∈ l := by
  unfold sortBy
  rw [sortBy_mem]
  simp

/-- The per-row min/max fold only widens the accumulated range. -/
theorem rowsFold_le (rows : List (Option ClusteringKey × Row)) :
    ∀ acc : Int × Int,
      (rows.foldl (fun a kr =>
        (min a.1 kr.2.timestamp, max a.2 kr.2.timestamp)) acc).1 ≤ acc.1 ∧
      acc.2 ≤ (rows.foldl (fun a kr =>
        (min a.1 kr.2.timestamp, max a.2 kr.2.timestamp)) acc).2 := by
  induction rows with
  | nil => intro acc; exact ⟨le_refl _, le_refl _⟩
  | cons kr rest ih =>
    intro acc
    simp only [List.foldl_cons]
    rcases ih (min acc.1 kr.2.timestamp, max acc.2 kr.2.timestamp) with ⟨h1, h2⟩
    constructor
    · exact le_trans h1 (by simp)
    · exact le_trans (by simp) h2

theorem rowsFold_mem (rows : List (Option ClusteringKey × Row))
    (kr : Option ClusteringKey × Row) (hm : kr ∈ rows) :
    ∀ acc : Int × Int,
      (rows.foldl (fun a q =>
        (min a.1 q.2.timestamp, max a.2 q.2.timestamp)) acc).1 ≤
          kr.2.timestamp ∧
      kr.2.timestamp ≤ (rows.foldl (fun a q =>
        (min a.1 q.2.timestamp, max a.2 q.2.timestamp)) acc).2 := by
  induction rows with
  | nil => cases hm
  | cons q rest ih =>
    intro acc
    simp only [List.foldl_cons]
    rcases List.mem_cons.mp hm with rfl | hm2
    · rcases rowsFold_le rest (min acc.1 kr.2.timestamp,
        max acc.2 kr.2.timestamp) with ⟨h1, h2⟩
      constructor
      · exact le_trans h1 (by simp)
      · exact le_trans (by simp) h2
    · exact ih hm2 _

theorem partsFold_le (parts : List (PartitionKey × Partition)) :
    ∀ acc : Int × Int,
      (parts.foldl (fun a pp => pp.2.rows.foldl (fun a kr =>
        (min a.1 kr.2.timestamp, max a.2 kr.2.timestamp)) a) acc).1 ≤ acc.1 ∧
      acc.2 ≤ (parts.foldl (fun a pp => pp.2.rows.foldl (fun a kr =>
        (min a.1 kr.2.timestamp, max a.2 kr.2.timestamp)) a) acc).2 := by
  induction parts with
  | nil => intro acc; exact ⟨le_refl _, le_refl _⟩
  | cons pp rest ih =>
    intro acc
    simp only [List.foldl_cons]
    rcases ih (pp.2.rows.foldl (fun a kr =>
      (min a.1 kr.2.timestamp, max a.2 kr.2.timestamp)) acc) with ⟨h1, h2⟩
    rcases rowsFold_le pp.2.rows acc with ⟨h3, h4⟩
    exact ⟨le_trans h1 h3, le_trans h4 h2⟩

/-- `tsFold` bounds the `Row::timestamp` of every row it visits. -/
theorem tsFold_bounds (parts : List (PartitionKey × Partition))
    (pp : PartitionKey × Partition) (hpp : pp ∈ parts)
    (kr : Option ClusteringKey × Row) (hkr : kr ∈ pp.2.rows) :
    (tsFold parts).1 ≤ kr.2.timestamp ∧
      kr.2.timestamp ≤ (tsFold parts).2 := by
  unfold tsFold
  generalize ((2 : Int) ^ 63 - 1, -(2 : Int) ^ 63) = acc0
  induction parts generalizing acc0 with
  | nil => cases hpp
  | cons q rest ih =>
    simp only [List.foldl_cons]
    rcases List.mem_cons.mp hpp with rfl | hpp2
    · rcases partsFold_le rest (pp.2.rows.foldl (fun a kr =>
        (min a.1 kr.2.timestamp, max a.2 kr.2.timestamp)) acc0) with ⟨h1, h2⟩
      rcases rowsFold_mem pp.2.rows kr hkr acc0 with ⟨h3, h4⟩
      exact ⟨le_trans h1 h3, le_trans h4 h2⟩
    · exact ih hpp2 _

/-- **C6** (corrected). The `min_timestamp`/`max_timestamp` an SSTable
records bound the *row* write-timestamps (`Row::timestamp`) of every row
stored in it — not the per-cell timestamps, which the creation loop never
visits: a cell timestamp may lie outside the recorded range (see
`C6_counterexample`). -/
theorem C6_timestamp_bounds (m : Memtable) (c : CompressionType)
    (pp : PartitionKey × Partition) (hpp : pp ∈ m.partitions)
    (kr : Option ClusteringKey × Row) (hkr : kr ∈ pp.2.rows) :
    (create_from_memtable m c).min_timestamp ≤ kr.2.timestamp ∧
      kr.2.timestamp ≤ (create_from_memtable m c).max_timestamp := by
  have hmin : (create_from_memtable m c).min_timestamp =
      (tsFold (sortBy (fun a b => pkCmp a.1 b.1) m.partitions)).1 := by
    simp only [create_from_memtable, Memtable.get_all_partitions]
  have hmax : (create_from_memtable m c).max_timestamp =
      (tsFold (sortBy (fun a b => pkCmp a.1 b.1) m.partitions)).2 := by
    simp only [create_from_memtable, Memtable.get_all_partitions]
  rw [hmin, hmax]
  exact tsFold_bounds _ pp ((mem_sortBy _ _ _).mpr hpp) kr hkr

/-- The amended bound instantiated at a concrete memtable. -/
theorem C6_timestamp_bounds_witness :
    (bigPK, c6Part) ∈ c6Mem.partitions ∧
    ((create_from_memtable c6Mem CompressionType.noneC).min_timestamp ≤
        c6Row.timestamp ∧
      c6Row.timestamp ≤
        (create_from_memtable c6Mem CompressionType.noneC).max_timestamp) :=
  ⟨List.mem_singleton.mpr rfl,
    C6_timestamp_bounds c6Mem CompressionType.noneC (bigPK, c6Part)
      (List.mem_singleton.mpr rfl) (none, c6Row)
      (List.mem_singleton.mpr rfl)⟩

/-- **C6** counterexample: the SSTable built from `c6Mem` records
`max_timestamp = 10` (the row's write-timestamp) while the row contains a
cell with timestamp 99, so the recorded range does not bound the cell
timestamps. -/
theorem C6_counterexample :
    (bigPK, c6Part) ∈ c6Mem.partitions ∧
    (none, c6Row) ∈ c6Part.rows ∧
    ([98], c6Cell) ∈ c6Row.cells ∧
    (create_from_memtable c6Mem CompressionType.noneC).max_timestamp = 10 ∧
    c6Cell.timestamp = 99 ∧
    ¬(c6Cell.timestamp ≤
        (create_from_memtable c6Mem CompressionType.noneC).max_timestamp) := by
  have h : (create_from_memtable c6Mem CompressionType.noneC).max_timestamp
      = (tsFold (sortBy (fun a b => pkCmp a.1 b.1) c6Mem.partitions)).2 := by
    simp only [create_from_memtable, Memtable.get_all_partitions]
  have h2 : (tsFold (sortBy (fun a b => pkCmp a.1 b.1) c6Mem.partitions)).2
      = 10 := by decide
  refine ⟨List.mem_singleton.mpr rfl, List.mem_singleton.mpr rfl,
    List.mem_singleton.mpr rfl, Eq.trans h h2, rfl, ?_⟩
  rw [Eq.trans h h2]
  decide

theorem foldl_max_ge (l : List (Nat × ByteStr)) :
    ∀ a : Nat, a ≤ l.foldl (fun a kv => max a kv.1) a ∧
      ∀ kv ∈ l, kv.1 ≤ l.foldl (fun a kv => max a kv.1) a := by
  induction l with
  | nil => intro a; exact ⟨le_refl a, by intro kv h; cases h⟩
  | cons kv rest ih =>
    intro a
    simp only [List.foldl_cons]
    rcases ih (max a kv.1) with ⟨h1, h2⟩
    refine ⟨le_trans (Nat.le_max_left a kv.1) h1, ?_⟩
    intro q hq
    rcases List.mem_cons.mp hq with rfl | hq2
    · exact le_trans (Nat.le_max_right a q.1) h1
    · exact h2 q hq2

theorem segFind_mem :
    ∀ (store : List (Nat × ByteStr)) (i : Nat) (bs : ByteStr),
      segFind store i = some bs → (i, bs) ∈ store := by
  intro store
  induction store with
  | nil => intro i bs h; cases h
  | cons kv rest ih =>
    intro i bs h
    unfold segFind at h
    by_cases hik : kv.1 = i
    · rw [if_pos hik] at h
      obtain ⟨k, v⟩ := kv
      cases h
      subst hik
      simp
    · obtain ⟨k, v⟩ := kv
      rw [if_neg hik] at h
      exact List.mem_cons.mpr (Or.inr (ih i bs h))

theorem segFind_le_maxSegId (store : List (Nat × ByteStr)) (i : Nat)
    (bs : ByteStr) (h : segFind store i = some bs) : i ≤ maxSegId store :=
  (foldl_max_ge store 0).2 (i, bs) (segFind_mem store i bs h)

/-- The segment loop accumulates exactly the per-segment replays up to the
first segment that yields no entries. -/
theorem replayAllLoop_spec (store : List (Nat × ByteStr)) :
    ∀ (ess : List (List CommitLogEntry)) (fuel id : Nat)
      (acc : List CommitLogEntry),
      (∀ i (h : i < ess.length),
        replay_from_segment store (id + i) = .ok (ess.get ⟨i, h⟩)) →
      (∀ es ∈ ess, es ≠ []) →
      replay_from_segment store (id + ess.length) = .ok [] →
      ess.length < fuel →
      replayAllLoop store fuel id acc = .ok (acc ++ ess.flatten) := by
  intro ess
  induction ess with
  | nil =>
    intro fuel id acc hok hne hgap hfuel
    cases fuel with
    | zero => omega
    | succ f =>
      simp only [List.length_nil, Nat.add_zero] at hgap
      simp only [replayAllLoop, hgap, List.isEmpty_nil, if_true]
      simp
  | cons es rest ih =>
    intro fuel id acc hok hne hgap hfuel
    cases fuel with
    | zero => simp at hfuel
    | succ f =>
      have h0 : replay_from_segment store id = .ok es := by
        have h := hok 0 (by simp)
        simpa using h
      have hne0 : es.isEmpty = false := by
        have h := hne es (by simp)
        cases es with
        | nil => exact absurd rfl h
        | cons a t => rfl
      simp only [replayAllLoop, h0, hne0, Bool.false_eq_true, if_false]
      have ihres := ih f (id + 1) (acc ++ es) ?_ ?_ ?_ ?_
      · rw [ihres]
        simp
      · intro i h
        have hh := hok (i + 1) (by simpa using Nat.succ_lt_succ h)
        rw [show id + (i + 1) = id + 1 + i from by omega] at hh
        simpa using hh
      · intro q hq
        exact hne q (by simp [hq])
      · rw [show id + 1 + rest.length = id + (rest.length + 1) from by omega]
        simpa using hgap
      · simp only [List.length_cons] at hfuel
        omega

/-- **C10** (confirmed). `replay_all` walks segment ids upward from 0 and
stops at the first segment that is missing or yields zero entries: if
segments `0 .. k-1` each replay to a non-empty entry list and segment `k`
replays to no entries (missing or empty), recovery returns exactly the
entries of segments `0 .. k-1` — whatever entries live in segments beyond
`k` are silently omitted. -/
theorem C10_replay_stops_at_first_gap (store : List (Nat × ByteStr))
    (ess : List (List CommitLogEntry))
    (hok : ∀ i (h : i < ess.length),
      replay_from_segment store i = .ok (ess.get ⟨i, h⟩))
    (hne : ∀ es ∈ ess, es ≠ [])
    (hgap : replay_from_segment store ess.length = .ok []) :
    replay_all store = .ok ess.flatten := by
  unfold replay_all
  have hfuel : ess.length < maxSegId store + 2 := by
    rcases Nat.eq_zero_or_pos ess.length with h0 | hpos
    · omega
    · have hlt : ess.length - 1 < ess.length := by omega
      have hlast := hok (ess.length - 1) hlt
      have hnel := hne _ (ess.get_mem _ hlt)
      cases hsf : segFind store (ess.length - 1) with
      | none =>
        unfold replay_from_segment at hlast
        rw [hsf] at hlast
        have : ([] : List CommitLogEntry) = ess.get ⟨ess.length - 1, hlt⟩ := by
          simpa using hlast
        exact absurd this.symm hnel
      | some bs =>
        have := segFind_le_maxSegId store _ bs hsf
        omega
  have h := replayAllLoop_spec store ess (maxSegId store + 2) 0 []
    (by intro i hi; simpa using hok i hi) hne (by simpa using hgap) hfuel
  simpa using h

/-- The gap behavior at a concrete store: segment 2's entry is recoverable
on its own, yet `replay_all` returns only segment 0's entry because
segment 1 is missing. -/
theorem C10_replay_stops_at_first_gap_witness :
    replay_from_segment walStore 0 = .ok [segEntry0] ∧
    replay_from_segment walStore 1 = .ok [] ∧
    replay_from_segment walStore 2 = .ok [segEntry2] ∧
    replay_all walStore = .ok [segEntry0] := by
  refine ⟨by rfl, by rfl, by rfl, ?_⟩
  have h := C10_replay_stops_at_first_gap walStore [[segEntry0]] ?_ ?_ ?_
  · simpa using h
  · intro i hi
    have h0 : i = 0 := by
      simp only [List.length_cons, List.length_nil] at hi
      omega
    subst h0
    rfl
  · intro es hes
    simp only [List.mem_singleton] at hes
    subst hes
    simp
  · rfl

/-- The scan returns the first SSTable hit in vector order. -/
theorem sstablesScan_first (pk : PartitionKey) :
    ∀ (pre : List SSTable) (s : SSTable) (post : List SSTable)
      (p : Partition),
      (∀ s2 ∈ pre, read_partition s2 pk = .ok none) →
      read_partition s pk = .ok (some p) →
      sstablesScan (pre ++ s :: post) pk = .ok (some p) := by
  intro pre
  induction pre with
  | nil =>
    intro s post p _ hs
    simp only [List.nil_append, sstablesScan, hs]
  | cons s2 rest ih =>
    intro s post p hpre hs
    have h2 : read_partition s2 pk = .ok none := hpre s2 (by simp)
    simp only [List.cons_append, sstablesScan, h2]
    exact ih s post p (fun q hq => hpre q (by simp [hq])) hs

/-- **C1** (corrected). In an existing keyspace and table, `get_row` is
first-hit-wins with no reconciliation: a memtable hit is returned
immediately — whatever newer cells any SSTable may hold — and otherwise
the SSTables are scanned in vector order (oldest first, since flush
appends at the end), the first found partition being returned whole, with
no clustering-key filtering and no timestamp merging. -/
theorem C1_get_row_first_hit (db : CoreDB) (keyspace table : ByteStr)
    (ks : Keyspace) (t : Table) (pk : PartitionKey)
    (ck : Option ClusteringKey)
    (hks : strFind db.keyspaces keyspace = some ks)
    (htbl : strFind ks.tables table = some t) :
    (∀ row, t.current_memtable.get pk ck = some row →
      db.get_row keyspace table pk ck = .ok (some (GetResult.row row))) ∧
    (t.current_memtable.get pk ck = none →
      ∀ (pre : List SSTable) (s : SSTable) (post : List SSTable)
        (p : Partition),
        t.sstables = pre ++ s :: post →
        (∀ s2 ∈ pre, read_partition s2 pk = .ok none) →
        read_partition s pk = .ok (some p) →
        db.get_row keyspace table pk ck = .ok (some (GetResult.part p))) := by
  constructor
  · intro row hrow
    simp only [CoreDB.get_row, hks, htbl, hrow]
  · intro hmiss pre s post p hsst hpre hs
    have hscan := sstablesScan_first pk pre s post p hpre hs
    rw [← hsst] at hscan
    simp only [CoreDB.get_row, hks, htbl, hmiss, hscan]

/-- **C2** (corrected). What `insert_row` really guarantees: a failed WAL
append rejects the mutation with the whole database — commit log and
memtables — unchanged; but the keyspace/table existence checks run *after*
the WAL append, so when the keyspace or table does not exist the call does
fail with keyspace-not-found/table-not-found, yet the entry has already
been appended to the commit log. -/
theorem C2_insert_row_wal_order (db : CoreDB) (keyspace table : ByteStr)
    (row : Row) (now : Int) :
    (db.insert_row false keyspace table row now =
      (db, .error DBError.walAppend)) ∧
    (strFind db.keyspaces keyspace = none →
      db.insert_row true keyspace table row now =
        (⟨db.keyspaces,
          db.commit_log ++ [⟨keyspace, table, Mutation.insert row, now⟩],
          db.memtable_flush_threshold_mb⟩,
          .error DBError.keyspaceNotFound)) ∧
    (∀ ks, strFind db.keyspaces keyspace = some ks →
      strFind ks.tables table = none →
      db.insert_row true keyspace table row now =
        (⟨db.keyspaces,
          db.commit_log ++ [⟨keyspace, table, Mutation.insert row, now⟩],
          db.memtable_flush_threshold_mb⟩,
          .error DBError.tableNotFound)) := by
  refine ⟨rfl, ?_, ?_⟩
  · intro hks
    simp only [CoreDB.insert_row, hks]
    rfl
  · intro ks hks htbl
    simp only [CoreDB.insert_row, hks, htbl]
    rfl

/-- The missing-keyspace branch of the amended statement at a concrete
database. -/
theorem C2_insert_row_wal_order_witness :
    c2DB.insert_row true [107] [116] smallRow 5 =
      (⟨c2DB.keyspaces,
        c2DB.commit_log ++ [⟨[107], [116], Mutation.insert smallRow, 5⟩],
        c2DB.memtable_flush_threshold_mb⟩,
        .error DBError.keyspaceNotFound) :=
  (C2_insert_row_wal_order c2DB [107] [116] smallRow 5).2.1 rfl

/-- **C2** counterexample: inserting into a database with no keyspaces
fails with keyspace-not-found as claimed, but the commit log — empty
before the call — now holds the mutation's entry: the existence check did
not run before the WAL append. -/
theorem C2_counterexample :
    strFind c2DB.keyspaces [107] = none ∧
    c2DB.commit_log = [] ∧
    (c2DB.insert_row true [107] [116] smallRow 5).2 =
      .error DBError.keyspaceNotFound ∧
    (c2DB.insert_row true [107] [116] smallRow 5).1.commit_log =
      [⟨[107], [116], Mutation.insert smallRow, 5⟩] :=
  ⟨rfl, rfl, rfl, rfl⟩

end CoreDB

namespace CoreDB

/-- **C4** (code bug). Flush does not preserve content in the source: the
56-byte header space is only counted, never written — the recorded block
offset for the single stored partition is 56 while its block physically
starts at offset 0 and the closing header write overwrites the stream's
first 56 bytes — and every `u32` length prefix is written big-endian
(tokio `write_u32`) but parsed little-endian on the read path. Reading
back the one partition of this well-formed memtable therefore seeks into
the middle of its own block, misreads the framing, and returns an error
instead of the stored row. -/
theorem C4_flush_read_fails :
    smallMem.wf = true ∧
    (bigPK, smallPart) ∈ smallMem.partitions ∧
    (create_from_memtable smallMem CompressionType.noneC).partition_index =
      [(bigPK, 56)] ∧
    read_partition (create_from_memtable smallMem CompressionType.noneC)
      bigPK = Except.error () := by
  refine ⟨by decide, List.mem_singleton.mpr rfl, ?_, ?_⟩
  · rfl
  · rfl

/-- The memtable-first-hit conjunct of `C1_get_row_first_hit`
instantiated at a concrete database: the hit row is returned as-is even
though an SSTable sits in the table's list. -/
theorem C1_get_row_first_hit_witness :
    c1DB.get_row [107] [116] bigPK none =
      Except.ok (some (GetResult.row c1RowOld)) :=
  (C1_get_row_first_hit c1DB [107] [116]
      ⟨[([116], ⟨[c1Sst], c1MemOld⟩)]⟩ ⟨[c1Sst], c1MemOld⟩ bigPK none
      rfl rfl).1 c1RowOld rfl

/-- **C1** counterexample: the same (partition key, clustering key, column
`[99]`) has a cell with timestamp 1 in the active memtable and a cell with
timestamp 2 in the memtable whose flush produced the table's SSTable, yet
`get_row` returns the memtable row carrying the timestamp-1 cell: the
memtable hit short-circuits before any SSTable is consulted, so the newer
cell is never reconciled into the result. -/
theorem C1_counterexample :
    c1Sst = create_from_memtable c1MemNew CompressionType.noneC ∧
    (bigPK, c1PartNew) ∈ c1MemNew.partitions ∧
    (none, c1RowNew) ∈ c1PartNew.rows ∧
    ([99], c1CellNew) ∈ c1RowNew.cells ∧ c1CellNew.timestamp = 2 ∧
    ([99], c1CellOld) ∈ c1RowOld.cells ∧ c1CellOld.timestamp = 1 ∧
    c1CellOld.timestamp < c1CellNew.timestamp ∧
    c1DB.get_row [107] [116] bigPK none =
      Except.ok (some (GetResult.row c1RowOld)) := by
  refine ⟨rfl, List.mem_singleton.mpr rfl, List.mem_singleton.mpr rfl,
    List.mem_singleton.mpr rfl, rfl, List.mem_singleton.mpr rfl, rfl,
    by decide, ?_⟩
  rfl

end CoreDB
